import Mathlib

/-!
Verification of the telc exercise engine against its specification.

The TypeScript sources are shallowly embedded: JS strings become `List Char`,
JS objects used as string-keyed maps become association lists, React state
hooks become explicit state records, and stateful event handlers become
operations on those records.  Every definition mirrors one source function;
spec-side characterisations are clearly named `spec...`.  Recursions that are
not structural carry an explicit fuel bounded by the input length, so that
every definition evaluates in the kernel.
-/

namespace Telc

/-- JS strings are modelled as lists of characters. -/
abbrev JsStr := List Char

/-- Whitespace characters recognised by JS `trim` / `\s` (ASCII model). -/
def jsWhitespace (c : Char) : Bool :=
  c = ' ' || c = '\t' || c = '\n' || c = '\r'

/-- Model of JS `String.prototype.trim`. -/
def jsTrim (s : JsStr) : JsStr :=
  ((s.dropWhile jsWhitespace).reverse.dropWhile jsWhitespace).reverse

/-- Model of JS `toLowerCase` on one character (ASCII model). -/
def jsToLowerChar (c : Char) : Char :=
  if 'A' ≤ c ∧ c ≤ 'Z' then Char.ofNat (c.toNat + 32) else c

/-- Model of JS `String.prototype.toLowerCase` (ASCII model). -/
def jsToLower (s : JsStr) : JsStr := s.map jsToLowerChar

/-- Model of JS template `${n}` for natural numbers (decimal digits). -/
def numChars (n : Nat) : JsStr := Nat.toDigits 10 n

/-- Does the list start with the given pattern (JS `startsWith`)? -/
def startsWithJs : JsStr → JsStr → Bool
  | _, [] => true
  | [], _ :: _ => false
  | c :: cs, p :: ps => c = p && startsWithJs cs ps

/- ### Blank micro-syntax parser (useBlanks.tsx lines 39-69) -/

/-- Scanner for the lazy regex tail `.*?\]`: after an opening `[`, collect
content up to the first `]`, failing on a newline or end of input (JS `.`
does not match newlines). -/
def scanClose : JsStr → Option (JsStr × JsStr)
  | [] => none
  | c :: cs =>
    if c = ']' then some ([], cs)
    else if c = '\n' then none
    else match scanClose cs with
      | some (content, rest) => some (c :: content, rest)
      | none => none

/-- Leftmost match of `\[.*?\]`: returns the gap before the match, the
matched token (brackets included) and the rest of the input. -/
def findToken : JsStr → Option (JsStr × JsStr × JsStr)
  | [] => none
  | c :: cs =>
    if c = '[' then
      match scanClose cs with
      | some (content, rest) => some ([], '[' :: (content ++ [']']), rest)
      | none =>
        match findToken cs with
        | some (gap, tok, rest) => some (c :: gap, tok, rest)
        | none => none
    else
      match findToken cs with
      | some (gap, tok, rest) => some (c :: gap, tok, rest)
      | none => none

/-- Fueled worker for `splitParts`; the fuel bounds the number of tokens. -/
def splitPartsAux : Nat → JsStr → List JsStr
  | 0, s => [s]
  | fuel + 1, s =>
    match findToken s with
    | none => [s]
    | some (gap, tok, rest) => gap :: tok :: splitPartsAux fuel rest

/-- Model of JS `text.split(/(\[.*?\])/g)`: alternating gaps and captured
tokens (the capture group makes the separators part of the result). -/
def splitParts (s : JsStr) : List JsStr := splitPartsAux (s.length + 1) s

/-- Fueled worker for `bracketTokens`. -/
def bracketTokensAux : Nat → JsStr → List JsStr
  | 0, _ => []
  | fuel + 1, s =>
    match findToken s with
    | none => []
    | some (_, tok, rest) => tok :: bracketTokensAux fuel rest

/-- The complete bracket tokens of a text, in document order, per the
grammar of the source regex `\[.*?\]`: `[`, then content free of `]` and
newlines, then `]`. -/
def bracketTokens (s : JsStr) : List JsStr := bracketTokensAux (s.length + 1) s

/-- The filter `p.startsWith('[') && p.endsWith(']')` from useBlanks. -/
def bracketLike (p : JsStr) : Bool :=
  p.head? = some '[' && p.getLast? = some ']'

/-- Model of JS `content.split('|')`. -/
def splitBar (s : JsStr) : List JsStr :=
  match s with
  | [] => [[]]
  | c :: cs =>
    match splitBar cs with
    | [] => [[]]
    | seg :: segs => if c = '|' then [] :: seg :: segs else (c :: seg) :: segs

/-- A parsed blank: answer, local distractor options, optional hint. -/
structure BlankData where
  answer : JsStr
  localOptions : List JsStr
  hint : Option JsStr
  deriving DecidableEq, Repr

/-- The per-token parse loop of useBlanks: strip brackets, split on `|`,
first segment is the answer, `hint:` segments set the hint (each occurrence
overwrites it), all other later segments are local options in order. -/
def parseBlankContent (content : JsStr) : BlankData :=
  let items := splitBar content
  let answer := items.headD []
  let rest := items.drop 1
  let state := rest.foldl
    (fun (acc : Option JsStr × List JsStr) item =>
      if startsWithJs item ("hint:".data) then (some (item.drop 5), acc.2)
      else (acc.1, acc.2 ++ [item]))
    (none, [])
  { answer := answer, localOptions := state.2, hint := state.1 }

/-- `blanksData` of useBlanks: split the text on the blank regex, keep the
parts that look like bracket tokens, and parse each one. -/
def blanksData (text : JsStr) : List BlankData :=
  ((splitParts text).filter bracketLike).map
    (fun p => parseBlankContent (p.drop 1 |>.dropLast))

/-- Spec-side reading of the hint rule: the hint is the payload of the last
segment starting with `hint:`, if any. -/
def specLastHint (segs : List JsStr) : Option JsStr :=
  ((segs.filter (fun seg => startsWithJs seg ("hint:".data))).getLast?).map
    (fun seg => seg.drop 5)

/- ### Blank interaction state machine (useBlanks.tsx lines 74-138, 200) -/

/-- The state held by the `useBlanks` hook. -/
structure BlanksState where
  inputs : List JsStr
  touched : List Bool
  blurred : List Bool
  submitted : Bool
  showAnswers : Bool
  deriving DecidableEq, Repr

/-- Fresh-mount state of the hook for `n` blanks. -/
def initBlanksState (n : Nat) : BlanksState :=
  { inputs := List.replicate n []
  , touched := List.replicate n false
  , blurred := List.replicate n false
  , submitted := false
  , showAnswers := false }

/-- The interactions offered by the hook. -/
inductive BlanksOp where
  | setValue (index : Nat) (value : JsStr)
  | blurField (index : Nat)
  | checkAnswers
  | revealAnswer (index : Nat)
  | showAllAnswers
  | resetAll
  deriving DecidableEq, Repr

/-- One step of the hook state machine; `answers` is the fixed parsed
answer list of the exercise instance.  `setValue` mirrors handleInputChange
(set value, mark touched, clear blurred), `blurField` mirrors handleBlur,
`checkAnswers` sets submitted, `revealAnswer` force-sets one answer and
marks touched, `showAllAnswers` sets every value to its answer and submits,
`resetAll` clears values, touched and submitted (and not blurred). -/
def blanksStep (answers : List JsStr) (s : BlanksState) : BlanksOp → BlanksState
  | .setValue i v =>
    { s with inputs := s.inputs.set i v
           , touched := s.touched.set i true
           , blurred := s.blurred.set i false }
  | .blurField i => { s with blurred := s.blurred.set i true }
  | .checkAnswers => { s with submitted := true, showAnswers := false }
  | .revealAnswer i =>
    { s with inputs := s.inputs.set i (answers.getD i [])
           , touched := s.touched.set i true }
  | .showAllAnswers =>
    { s with inputs := answers, submitted := true, showAnswers := true }
  | .resetAll =>
    { s with submitted := false
           , showAnswers := false
           , inputs := List.replicate answers.length []
           , touched := List.replicate answers.length false }

/-- Run a sequence of hook interactions. -/
def blanksRun (answers : List JsStr) (s : BlanksState) : List BlanksOp → BlanksState
  | [] => s
  | op :: ops => blanksRun answers (blanksStep answers s op) ops

/-- `allCorrect` of useBlanks: `inputs.every((val, idx) =>
val.trim().toLowerCase() === answers[idx].toLowerCase())`.  In every state
of the hook `inputs` and `answers` have the same length, so the
index-aligned JS iteration is a `zip`. -/
def allCorrect (answers inputs : List JsStr) : Bool :=
  (inputs.zip answers).all fun p => jsToLower (jsTrim p.1) == jsToLower p.2

/- ### Exercise identity and progress store (exerciseId.ts, pathUtils, progress utils) -/

/-- One persisted ledger record (`ExerciseProgress` in the source; the
timestamp field plays no role in any queried property). -/
structure ExerciseProgress where
  exerciseId : JsStr
  lessonPath : JsStr
  completed : Bool
  deriving DecidableEq, Repr

/-- Result record of `getLessonProgress`. -/
structure LessonProgress where
  path : JsStr
  totalExercises : Nat
  completedExercises : Nat
  percentage : Nat
  deriving DecidableEq, Repr

/-- Half-up rounding of the exact rational `(100*c)/t`, i.e.
`floor(100*c/t + 1/2)`: the idealized reading of `Math.round((c/t)*100)`
that ignores the IEEE-754 double arithmetic the source actually performs. -/
def specRound100 (c t : Nat) : Nat := (200 * c + t) / (2 * t)

/-- Fueled binary length of a natural number. -/
def bitLenF : Nat → Nat → Nat
  | 0, _ => 0
  | fuel + 1, n => if n = 0 then 0 else bitLenF fuel (n / 2) + 1

/-- Binary length: the number of bits of `n` (0 for 0). -/
def bitLen (n : Nat) : Nat := bitLenF n n

/-- The smallest `k` with `t ≤ c * 2^k` (for `0 < c ≤ t`; the fuel `t`
always suffices): `c/t ∈ [2^(-k), 2^(1-k))`. -/
def scaleUp : Nat → Nat → Nat → Nat
  | 0, _, _ => 0
  | fuel + 1, c, t => if t ≤ c then 0 else scaleUp fuel (2 * c) t + 1

/-- Round the rational `N/d` to the nearest integer, ties to even: the
rounding IEEE-754 applies to a binary64 significand. -/
def rne (N d : Nat) : Nat :=
  let q := N / d
  let r := N % d
  if 2 * r < d then q
  else if d < 2 * r then q + 1
  else if q % 2 = 0 then q else q + 1

/-- Exact model of the source's `Math.round((c / t) * 100)` computed in
IEEE-754 binary64 arithmetic, for the reachable domain `c ≤ t` (the
completed count is capped at the total): `c / t` is rounded to a 53-bit
significand `m1 * 2^(-(k+52))` (round-to-nearest, ties-to-even), the exact
product with 100 is rounded back to 53 bits, and `Math.round` takes the
nearest integer of that exact dyadic value, ties toward +∞.  All values
involved lie well inside the normal range of binary64. -/
def jsPercentFloat (c t : Nat) : Nat :=
  if c = 0 then 0
  else
    let k := scaleUp t c t
    let m1 := rne (c * 2 ^ (k + 52)) t
    let M := 100 * m1
    let s := bitLen M - 53
    let m2 := rne M (2 ^ s)
    let e := k + 52 - s
    (m2 + 2 ^ (e - 1)) / 2 ^ e

/-- `getLessonProgress`: count the completed ledger entries whose
`lessonPath` matches, cap at `totalExercises`, and report the percentage
`Math.round((completed / total) * 100)` of the double computation (0 when
the total is 0). -/
def getLessonProgress (lessonPath : JsStr) (totalExercises : Nat)
    (ledger : List ExerciseProgress) : LessonProgress :=
  let lessonExercises := ledger.filter fun p => p.lessonPath == lessonPath && p.completed
  let completedExercises := min lessonExercises.length totalExercises
  let percentage :=
    if totalExercises > 0 then jsPercentFloat completedExercises totalExercises else 0
  { path := lessonPath
  , totalExercises := totalExercises
  , completedExercises := completedExercises
  , percentage := percentage }

/-- Signed 32-bit truncation of an integer (the effect of JS `<<`/`&` on a
number: ToInt32). -/
def toInt32 (n : Int) : Int :=
  let m := n % 4294967296
  if m < 2147483648 then m else m - 4294967296

/-- One iteration of `simpleHash`:
`hash = ((hash << 5) - hash) + char; hash = hash & hash` - the shift works
on 32 bits and the self-`&` coerces the sum back to a signed 32-bit value. -/
def simpleHashStep (hash : Int) (code : Nat) : Int :=
  toInt32 (toInt32 (hash * 32) - hash + code)

/-- `simpleHash` from exerciseId.ts: rolling hash over the code units of
the content, absolute value, decimal digits. -/
def simpleHash (content : JsStr) : JsStr :=
  numChars (Int.natAbs (content.foldl (fun h c => simpleHashStep h c.toNat) 0))

/-- `normalizePath` from pathUtils: strip the deployment base path when the
base is nonempty, absolute, not just the root, and a prefix of the path,
re-rooting the remainder with '/'. -/
def normalizePath (base path : JsStr) : JsStr :=
  if base ≠ [] ∧ startsWithJs base ['/'] ∧ base ≠ ['/'] ∧ startsWithJs path base then
    let relative := path.drop base.length
    if startsWithJs relative ['/'] then relative else '/' :: relative
  else path

/-- `generateStableExerciseId`: `${cleanPath}:${exerciseType}:${hash}`. -/
def generateStableExerciseId (base lessonPath exerciseType content : JsStr) : JsStr :=
  normalizePath base lessonPath ++ ':' :: exerciseType ++ ':' :: simpleHash content

/-- The FillBlanks mount computes its exercise id from the lesson path, the
literal type tag and the children text; the shuffled token bank held in the
same component state (passed here as the last argument) is not consulted.
Mirrors the useEffect of FillBlanks.tsx lines 121-127. -/
def fillBlanksMountId (base lessonPath childrenText : JsStr)
    (_shuffledBank : List JsStr) : JsStr :=
  generateStableExerciseId base lessonPath ("FillBlanks".data) childrenText

/- ### Drag/click placement engine (FillBlanks.tsx lines 169-320) -/

/-- Association-list model of a JS object used as a string-keyed map:
`obj[k]` (undefined when absent). -/
def lookupA (m : List (JsStr × JsStr)) (k : JsStr) : Option JsStr :=
  (m.find? (fun p => p.1 == k)).map Prod.snd

/-- JS object update `obj[k] = v`: overwrite the existing entry in place,
or append a new one. -/
def insertA (m : List (JsStr × JsStr)) (k v : JsStr) : List (JsStr × JsStr) :=
  if (m.find? (fun p => p.1 == k)).isSome
  then m.map (fun p => if p.1 == k then (k, v) else p)
  else m ++ [(k, v)]

/-- JS `delete obj[k]`. -/
def eraseA (m : List (JsStr × JsStr)) (k : JsStr) : List (JsStr × JsStr) :=
  m.filter (fun p => !(p.1 == k))

/-- `Object.keys(droppedItems).find(key => droppedItems[key] === id)`. -/
def findSlotOf (m : List (JsStr × JsStr)) (v : JsStr) : Option JsStr :=
  (m.find? (fun p => p.2 == v)).map Prod.fst

/-- The drag-and-drop state of FillBlanks: the bank of unplaced item ids
(`dragItems`), the slot-to-item object (`droppedItems`) and the ephemeral
click selection (`selectedId`). -/
structure PlaceState where
  dragItems : List JsStr
  droppedItems : List (JsStr × JsStr)
  selectedId : Option JsStr
  deriving DecidableEq, Repr

/-- Initial state: every token id in the (shuffled) bank, nothing placed. -/
def initPlaceState (bank : List JsStr) : PlaceState :=
  { dragItems := bank, droppedItems := [], selectedId := none }

/-- The placement body shared verbatim by `handleDragEnd` (over a zone) and
`handleDropZoneClick` (with a selection): set `droppedItems[target] =
activeId`, delete the source zone of `activeId` if it had one, drop
`activeId` from the bank if it was there, and push the previous occupant of
the target zone (if any) back onto the bank, clearing the selection. -/
def placeCore (s : PlaceState) (activeId target : JsStr) : PlaceState :=
  let sourceDropZoneId := findSlotOf s.droppedItems activeId
  let isFromBank := s.dragItems.contains activeId
  let itemInTargetZone := lookupA s.droppedItems target
  let newDropped :=
    match sourceDropZoneId with
    | some src => eraseA (insertA s.droppedItems target activeId) src
    | none => insertA s.droppedItems target activeId
  let newDrag₁ :=
    if isFromBank then s.dragItems.filter (fun i => !(i == activeId))
    else s.dragItems
  let newDrag₂ :=
    match itemInTargetZone with
    | some prev => newDrag₁ ++ [prev]
    | none => newDrag₁
  { dragItems := newDrag₂, droppedItems := newDropped, selectedId := none }

/-- `handleDragEnd` when the drag ends over a drop zone: a drop on the zone
the item came from is a no-op (the handler returns before clearing the
selection); otherwise the shared placement body runs. -/
def dragEndOver (s : PlaceState) (activeId target : JsStr) : PlaceState :=
  if findSlotOf s.droppedItems activeId = some target then s
  else placeCore s activeId target

/-- `handleDragEnd` when the drag ends outside every drop zone: a placed
item returns to the bank; a bank item only loses the selection. -/
def dragEndOutside (s : PlaceState) (activeId : JsStr) : PlaceState :=
  match findSlotOf s.droppedItems activeId with
  | some src =>
    { dragItems := s.dragItems ++ [activeId]
    , droppedItems := eraseA s.droppedItems src
    , selectedId := none }
  | none => { s with selectedId := none }

/-- `handleWordClick` (the pre-submission branch): toggle the selection. -/
def wordClick (s : PlaceState) (id : JsStr) : PlaceState :=
  { s with selectedId := if s.selectedId = some id then none else some id }

/-- `handleDropZoneClick` (the pre-submission branch; the empty-slot
options-menu case changes no placement state): with a selection, place the
selected item (evicting any occupant back to the bank); with no selection,
return the occupant, if any, to the bank. -/
def dropZoneClick (s : PlaceState) (dropId : JsStr) : PlaceState :=
  let currentItemId := lookupA s.droppedItems dropId
  match s.selectedId with
  | some sel =>
    if currentItemId = some sel then { s with selectedId := none }
    else placeCore s sel dropId
  | none =>
    match currentItemId with
    | some cur =>
      { dragItems := s.dragItems ++ [cur]
      , droppedItems := eraseA s.droppedItems dropId
      , selectedId := none }
    | none => s

/-- The engine operations covered by the placement claim. -/
inductive PlaceOp where
  | dragEndOver (activeId : JsStr) (target : JsStr)
  | dragEndOutside (activeId : JsStr)
  | wordClick (id : JsStr)
  | dropZoneClick (dropId : JsStr)
  deriving DecidableEq, Repr

/-- Dispatch one operation. -/
def placeStep (s : PlaceState) : PlaceOp → PlaceState
  | .dragEndOver a t => dragEndOver s a t
  | .dragEndOutside a => dragEndOutside s a
  | .wordClick i => wordClick s i
  | .dropZoneClick d => dropZoneClick s d

/-- Run a sequence of operations. -/
def placeRun (s : PlaceState) : List PlaceOp → PlaceState
  | [] => s
  | op :: ops => placeRun (placeStep s op) ops

/-- The placement invariant: bank ids distinct, slot keys distinct, no
token id on two slots (value-injectivity), and no id both in the bank and
placed. -/
def placeWf (s : PlaceState) : Prop :=
  s.dragItems.Nodup ∧
  (s.droppedItems.map Prod.fst).Nodup ∧
  (∀ p ∈ s.droppedItems, ∀ q ∈ s.droppedItems, p.2 = q.2 → p.1 = q.1) ∧
  (∀ i ∈ s.dragItems, ∀ p ∈ s.droppedItems, p.2 ≠ i)

instance placeWfDecidable (s : PlaceState) : Decidable (placeWf s) := by
  unfold placeWf
  exact inferInstance

/- ### FillBlanks drag-mode validator (FillBlanks.tsx lines 362-370) -/

/-- A token of the drag bank (`allItems` entry): generated id and text. -/
structure DragItem where
  id : JsStr
  text : JsStr
  deriving DecidableEq, Repr

/-- `getItemText`: `allItems.find(i => i.id === id)?.text || ''`. -/
def getItemText (allItems : List DragItem) (id : JsStr) : JsStr :=
  ((allItems.find? (fun i => i.id == id)).map DragItem.text).getD []

/-- The drop-zone key for blank `idx`: `drop-${idx}`. -/
def dropKey (idx : Nat) : JsStr := "drop-".data ++ numChars idx

/-- The drag-mode branch of `allCorrect` in FillBlanks:
`answers.every((ans, idx) => { const droppedId = droppedItems[dropKey(idx)];
return droppedId && getItemText(droppedId) === ans; })` - a missing key (or
a falsy empty-string id) fails its conjunct. -/
def dragAllCorrect (answers : List JsStr) (allItems : List DragItem)
    (droppedItems : List (JsStr × JsStr)) : Bool :=
  (List.range answers.length).all fun idx =>
    match lookupA droppedItems (dropKey idx) with
    | none => false
    | some droppedId =>
      !(droppedId == []) && getItemText allItems droppedId == answers.getD idx []

/- ### Quiz validator (Quiz.tsx lines 33-64) -/

/-- Model of JS `answer.split(',')`. -/
def splitComma (s : JsStr) : List JsStr :=
  match s with
  | [] => [[]]
  | c :: cs =>
    match splitComma cs with
    | [] => [[]]
    | seg :: segs => if c = ',' then [] :: seg :: segs else (c :: seg) :: segs

/-- `correctAnswers = answer.split(',').map(s => s.trim())`. -/
def quizCorrectAnswers (answer : JsStr) : List JsStr :=
  (splitComma answer).map jsTrim

/-- The submit-time correctness check of Quiz:
`selected.length === correctAnswers.length &&
selected.every(s => correctAnswers.includes(s))`. -/
def quizIsCorrect (answer : JsStr) (selected : List JsStr) : Bool :=
  selected.length == (quizCorrectAnswers answer).length
    && selected.all (fun s => (quizCorrectAnswers answer).contains s)

/-- `isMultiple = multiple || answer.includes(',')`. -/
def quizIsMultiple (answer : JsStr) (multiple : Bool) : Bool :=
  multiple || answer.contains ','

/-- `handleSelect` (pre-submission): toggle the 1-based index string in
multi-select mode, replace the selection in single mode. -/
def quizHandleSelect (isMult : Bool) (selected : List JsStr) (index : Nat) :
    List JsStr :=
  let val := numChars (index + 1)
  if isMult then
    if selected.contains val then selected.filter (fun v => !(v == val))
    else selected ++ [val]
  else [val]

/- ### SpeakingChallenge transcript matcher (SpeakingChallenge.tsx 136-231) -/

/-- The punctuation characters removed by the normalizer's regex
character class (dot, comma, slash, hash, bang, dollar, percent, caret,
ampersand, star, semicolon, colon, both braces, equals, hyphen, underscore,
backquote, tilde, both parentheses). -/
def speechPunct : List Char :=
  ['.', ',', '/', '#', '!', '$', '%', '^', '&', '*', ';', ':',
   Char.ofNat 123, Char.ofNat 125, '=', '-', '_', Char.ofNat 96, '~', '(', ')']

/-- `normalize = s => s.toLowerCase().replace(punctRegex, "").trim()`. -/
def speechNormalize (s : JsStr) : JsStr :=
  jsTrim ((jsToLower s).filter (fun c => !speechPunct.contains c))

/-- Maximal non-whitespace runs of a string, in order. -/
def wordRuns (acc : JsStr) : JsStr → List JsStr
  | [] => if acc = [] then [] else [acc.reverse]
  | c :: cs =>
    if jsWhitespace c then
      if acc = [] then wordRuns [] cs else acc.reverse :: wordRuns [] cs
    else wordRuns (c :: acc) cs

/-- Model of JS `text.split(/\s+/)`: the maximal non-whitespace runs, plus
a leading empty segment when the text starts with whitespace and a trailing
empty segment when it ends with whitespace; the empty string yields [""].-/
def splitWsJs (s : JsStr) : List JsStr :=
  match s with
  | [] => [[]]
  | c :: cs =>
    (if jsWhitespace c then [[]] else [])
      ++ wordRuns [] (c :: cs)
      ++ (if jsWhitespace ((c :: cs).getLast (by simp)) then [[]] else [])

/-- `targetWords = words.map(normalize)` where `words = text.split(/\s+/)`. -/
def speechTargetWords (text : JsStr) : List JsStr :=
  (splitWsJs text).map speechNormalize

/-- `spokenWords = spokenText.split(/\s+/).map(normalize).filter(Boolean)`. -/
def speechSpokenWords (spokenText : JsStr) : List JsStr :=
  ((splitWsJs spokenText).map speechNormalize).filter (fun w => !(w == []))

/-- Fueled Levenshtein distance (the standard recurrence; the source fills
a DP matrix computing exactly this recurrence and reads off the corner). -/
def levAux : Nat → JsStr → JsStr → Nat
  | _, [], b => b.length
  | _, a :: as, [] => (a :: as).length
  | 0, a, b => a.length + b.length
  | fuel + 1, a :: as, b :: bs =>
    if a = b then levAux fuel as bs
    else 1 + min (levAux fuel as bs)
            (min (levAux fuel (a :: as) bs) (levAux fuel as (b :: bs)))

/-- `levenshteinDistance` from the source. -/
def levenshteinDistance (a b : JsStr) : Nat := levAux (a.length + b.length) a b

/-- The per-word-pair match test of the alignment loop:
`target === spoken || (target.length > 3 && spoken.length > 3 &&
levenshteinDistance(target, spoken) <= 1)`. -/
def fuzzyEq (target spoken : JsStr) : Bool :=
  target == spoken
    || (decide (3 < target.length) && decide (3 < spoken.length)
        && decide (levenshteinDistance target spoken ≤ 1))

/-- The while-loop of `verifySpeech`: greedy left-to-right alignment.  On a
match both cursors advance; otherwise the loop looks ahead up to 2 spoken
words (consuming the skipped words on success); otherwise only the target
cursor advances.  Returns the number of matched target indices (each target
index is added to the matched set at most once). -/
def matchCount : List JsStr → List JsStr → Nat
  | [], _ => 0
  | _ :: _, [] => 0
  | t :: ts, sp :: sps =>
    if fuzzyEq t sp then 1 + matchCount ts sps
    else
      match sps with
      | sp1 :: sps1 =>
        if fuzzyEq t sp1 then 1 + matchCount ts sps1
        else
          match sps1 with
          | sp2 :: sps2 =>
            if fuzzyEq t sp2 then 1 + matchCount ts sps2
            else matchCount ts (sp :: sps)
          | [] => matchCount ts (sp :: sps)
      | [] => matchCount ts (sp :: sps)

/-- The completion test of `verifySpeech`:
`matchedIndices.size / targetWords.length >= 0.85` (status 'correct'),
written over the exact rational. -/
def speechCorrect (text spokenText : JsStr) : Bool :=
  decide (17 * (speechTargetWords text).length
    ≤ 20 * matchCount (speechTargetWords text) (speechSpokenWords spokenText))

/-- Spec-side alignment relation of the claim: each target word is either
skipped (unmatched), or matched against the next spoken word - accepting
exact equality or edit distance at most 1 for words longer than 3
characters - with up to 2 spoken words skipped ahead of the match; the
index counts matched target words. -/
inductive SpecAligns : List JsStr → List JsStr → Nat → Prop
  | nilTarget (sp : List JsStr) : SpecAligns [] sp 0
  | nilSpoken (ts : List JsStr) : SpecAligns ts [] 0
  | skipTarget {t : JsStr} {ts sp : List JsStr} {n : Nat} :
      SpecAligns ts sp n → SpecAligns (t :: ts) sp n
  | matched {t sp : JsStr} {ts sps : List JsStr} {n : Nat} :
      fuzzyEq t sp = true →
      SpecAligns ts sps n → SpecAligns (t :: ts) (sp :: sps) (n + 1)
  | lookahead1 {t sp0 sp1 : JsStr} {ts sps : List JsStr} {n : Nat} :
      fuzzyEq t sp1 = true →
      SpecAligns ts sps n → SpecAligns (t :: ts) (sp0 :: sp1 :: sps) (n + 1)
  | lookahead2 {t sp0 sp1 sp2 : JsStr} {ts sps : List JsStr} {n : Nat} :
      fuzzyEq t sp2 = true →
      SpecAligns ts sps n → SpecAligns (t :: ts) (sp0 :: sp1 :: sp2 :: sps) (n + 1)

/- ### Checkpointed media controller (InteractiveMedia) -/

/-- The controller state of InteractiveMedia that the completion logic
observes: playback position, playing flag, the checkpoint currently
presented modally (by its authored time), the set of checkpoint times
completed this session, the ended flag and the sticky completion mark. -/
structure MediaState where
  currentTime : ℚ
  isPlaying : Bool
  activeCheckpoint : Option ℚ
  completedCheckpoints : List ℚ
  hasEnded : Bool
  isCompleted : Bool
  deriving DecidableEq, Repr

/-- Mount state: nothing played, nothing completed. -/
def initMediaState : MediaState :=
  { currentTime := 0, isPlaying := false, activeCheckpoint := none
  , completedCheckpoints := [], hasEnded := false, isCompleted := false }

/-- The events delivered to the controller: a playback time update (only
delivered while not scrubbing), the Continue and Replay actions of an
active checkpoint, the end-of-playback notification, play/pause, and an
authoritative seek (which by itself checks no checkpoints). -/
inductive MediaEv where
  | progress (t : ℚ)
  | continueBtn
  | replayBtn
  | ended
  | playPause (playing : Bool)
  | seekTo (t : ℚ)
  deriving DecidableEq, Repr

/-- `checkCheckpoints`: find the first checkpoint whose trigger window
`[time, time + 1)` contains the playback time and whose time is not yet
completed; pause and present it. -/
def checkCheckpoints (cps : List ℚ) (s : MediaState) (time : ℚ) : MediaState :=
  match cps.find? (fun cp => decide (cp ≤ time) && decide (time < cp + 1)
      && !(s.completedCheckpoints.contains cp)) with
  | some cp => { s with isPlaying := false, activeCheckpoint := some cp }
  | none => s

/-- JS `new Set(prev).add(t)` on the modelled list of completed times. -/
def addCompleted (l : List ℚ) (t : ℚ) : List ℚ :=
  if t ∈ l then l else l ++ [t]

/-- `handleReplay`'s target time: just past the previous checkpoint's
window (`+ 1.1`), or 0; falling back to a 5-second rewind (clamped at 0)
when that would not precede the active checkpoint. -/
def mediaReplayTarget (cps : List ℚ) (active : ℚ) : ℚ :=
  let target₀ : ℚ :=
    match cps.findIdx? (fun cp => cp == active) with
    | some i => if 0 < i then cps.getD (i - 1) 0 + 11/10 else 0
    | none => 0
  if active ≤ target₀ then max 0 (active - 5) else target₀

/-- One event, without the completion effect. -/
def mediaStepCore (cps : List ℚ) (s : MediaState) : MediaEv → MediaState
  | .progress t => checkCheckpoints cps { s with currentTime := t } t
  | .continueBtn =>
    match s.activeCheckpoint with
    | some cp =>
      { s with completedCheckpoints := addCompleted s.completedCheckpoints cp
             , activeCheckpoint := none, isPlaying := true }
    | none => s
  | .replayBtn =>
    match s.activeCheckpoint with
    | some cp =>
      { s with currentTime := mediaReplayTarget cps cp
             , activeCheckpoint := none, isPlaying := true }
    | none => s
  | .ended => { s with isPlaying := false, hasEnded := true }
  | .playPause b => { s with isPlaying := b }
  | .seekTo t => { s with currentTime := t }

/-- The completion effect of InteractiveMedia: once ended with as many
completed checkpoint times as authored checkpoints, mark the exercise
complete (a sticky flag; the ledger write is idempotent). -/
def mediaCompletionEffect (cps : List ℚ) (s : MediaState) : MediaState :=
  if s.hasEnded = true ∧ s.completedCheckpoints.length = cps.length
  then { s with isCompleted := true } else s

/-- One full event step: the handler, then the effect. -/
def mediaStep (cps : List ℚ) (s : MediaState) (e : MediaEv) : MediaState :=
  mediaCompletionEffect cps (mediaStepCore cps s e)

/-- Run a sequence of events. -/
def mediaRun (cps : List ℚ) (s : MediaState) : List MediaEv → MediaState
  | [] => s
  | e :: evs => mediaRun cps (mediaStep cps s e) evs

/-- Internal invariant tying the sticky completion flag to the state. -/
def mediaInv (cps : List ℚ) (s : MediaState) : Prop :=
  s.completedCheckpoints.Nodup ∧
  (∀ c ∈ s.completedCheckpoints, c ∈ cps) ∧
  (∀ c : ℚ, s.activeCheckpoint = some c → c ∈ cps) ∧
  (s.isCompleted = true ↔
    (s.hasEnded = true ∧ s.completedCheckpoints.length = cps.length))

end Telc

/- ### THEOREMS -/

namespace Telc

theorem findToken_rest_length {s gap tok rest : JsStr}
    (h : findToken s = some (gap, tok, rest)) : rest.length < s.length := by
  induction s generalizing gap tok rest with
  | nil => simp [findToken] at h
  | cons c cs ih =>
    have scanClose_len : ∀ {t content r : JsStr},
        scanClose t = some (content, r) → r.length < t.length := by
      intro t
      induction t with
      | nil => intro content r h'; simp [scanClose] at h'
      | cons d ds ihs =>
        intro content r h'
        simp only [scanClose] at h'
        split at h'
        · simp at h'
          simp [← h'.2]
        · split at h'
          · exact absurd h' (by simp)
          · cases hrec : scanClose ds with
            | none => rw [hrec] at h'; exact absurd h' (by simp)
            | some p =>
              rw [hrec] at h'
              obtain ⟨content', rest'⟩ := p
              simp at h'
              have := ihs hrec
              simp [← h'.2]
              omega
    simp only [findToken] at h
    split at h
    · cases hsc : scanClose cs with
      | some p =>
        obtain ⟨content, r⟩ := p
        rw [hsc] at h
        simp at h
        have := scanClose_len hsc
        simp [← h.2.2]
        omega
      | none =>
        rw [hsc] at h
        cases hft : findToken cs with
        | none => rw [hft] at h; exact absurd h (by simp)
        | some q =>
          obtain ⟨g', t', r'⟩ := q
          rw [hft] at h
          simp at h
          have := ih hft
          simp [← h.2.2]
          omega
    · cases hft : findToken cs with
      | none => rw [hft] at h; exact absurd h (by simp)
      | some q =>
        obtain ⟨g', t', r'⟩ := q
        rw [hft] at h
        simp at h
        have := ih hft
        simp [← h.2.2]
        omega

theorem splitPartsAux_fuel {f : Nat} : ∀ {g : Nat} {s : JsStr},
    s.length < f → s.length < g → splitPartsAux f s = splitPartsAux g s := by
  induction f with
  | zero => intro g s hf; omega
  | succ f ih =>
    intro g s hf hg
    match g, hg with
    | g + 1, hg =>
      simp only [splitPartsAux]
      cases hft : findToken s with
      | none => rfl
      | some p =>
        obtain ⟨gap, tok, rest⟩ := p
        have hlt := findToken_rest_length hft
        have heq := ih (g := g) (s := rest) (by omega) (by omega)
        simp only [heq]

theorem splitParts_none {s : JsStr} (h : findToken s = none) :
    splitParts s = [s] := by
  simp [splitParts, splitPartsAux, h]

theorem splitParts_some {s gap tok rest : JsStr}
    (h : findToken s = some (gap, tok, rest)) :
    splitParts s = gap :: tok :: splitParts rest := by
  have hlt := findToken_rest_length h
  have heq : splitPartsAux (s.length + 1) s
      = gap :: tok :: splitPartsAux s.length rest := by
    simp only [splitPartsAux, h]
  rw [splitParts, heq, splitParts,
    splitPartsAux_fuel (f := s.length) (g := rest.length + 1) (by omega) (by omega)]

theorem bracketTokensAux_fuel {f : Nat} : ∀ {g : Nat} {s : JsStr},
    s.length < f → s.length < g → bracketTokensAux f s = bracketTokensAux g s := by
  induction f with
  | zero => intro g s hf; omega
  | succ f ih =>
    intro g s hf hg
    match g, hg with
    | g + 1, hg =>
      simp only [bracketTokensAux]
      cases hft : findToken s with
      | none => rfl
      | some p =>
        obtain ⟨gap, tok, rest⟩ := p
        have hlt := findToken_rest_length hft
        have heq := ih (g := g) (s := rest) (by omega) (by omega)
        simp only [heq]

theorem bracketTokens_none {s : JsStr} (h : findToken s = none) :
    bracketTokens s = [] := by
  simp [bracketTokens, bracketTokensAux, h]

theorem bracketTokens_some {s gap tok rest : JsStr}
    (h : findToken s = some (gap, tok, rest)) :
    bracketTokens s = tok :: bracketTokens rest := by
  have hlt := findToken_rest_length h
  have heq : bracketTokensAux (s.length + 1) s
      = tok :: bracketTokensAux s.length rest := by
    simp only [bracketTokensAux, h]
  rw [bracketTokens, heq, bracketTokens,
    bracketTokensAux_fuel (f := s.length) (g := rest.length + 1) (by omega) (by omega)]

theorem getLast?_some_mem {l : List Char} {d : Char}
    (h : l.getLast? = some d) : d ∈ l := by
  have hmem : d ∈ l.getLast? := by rw [h]; rfl
  obtain ⟨hne, hd⟩ := List.mem_getLast?_eq_getLast hmem
  rw [hd]
  exact List.getLast_mem hne

theorem scanClose_none_no_close {s : JsStr} (hnl : ('\n' : Char) ∉ s)
    (h : scanClose s = none) : (']' : Char) ∉ s := by
  induction s with
  | nil => simp
  | cons c cs ih =>
    simp only [scanClose] at h
    by_cases hc : c = ']'
    · rw [if_pos hc] at h
      exact absurd h (by simp)
    · rw [if_neg hc] at h
      by_cases hn : c = '\n'
      · refine absurd ?_ hnl
        rw [hn]
        exact List.mem_cons_self _ _
      · rw [if_neg hn] at h
        cases hrec : scanClose cs with
        | some p =>
          obtain ⟨a, b⟩ := p
          rw [hrec] at h
          simp at h
        | none =>
          have hcs : (']' : Char) ∉ cs :=
            ih (fun hm => hnl (List.mem_cons_of_mem _ hm)) hrec
          intro hmem
          rcases List.mem_cons.mp hmem with h1 | h1
          · exact hc h1.symm
          · exact hcs h1

theorem scanClose_decomp : ∀ {t content r : JsStr},
    scanClose t = some (content, r) → t = content ++ ']' :: r := by
  intro t
  induction t with
  | nil => intro content r h'; simp [scanClose] at h'
  | cons d ds ihs =>
    intro content r h'
    simp only [scanClose] at h'
    split at h'
    · rename_i hd
      simp only [Option.some.injEq, Prod.mk.injEq] at h'
      obtain ⟨h1, h2⟩ := h'
      subst h1
      subst h2
      rw [hd]
      simp
    · split at h'
      · exact absurd h' (by simp)
      · cases hrec : scanClose ds with
        | none => rw [hrec] at h'; exact absurd h' (by simp)
        | some p =>
          obtain ⟨content', rest'⟩ := p
          rw [hrec] at h'
          simp only [Option.some.injEq, Prod.mk.injEq] at h'
          obtain ⟨h1, h2⟩ := h'
          subst h1
          subst h2
          simp [ihs hrec]

theorem findToken_decomp {s gap tok rest : JsStr}
    (h : findToken s = some (gap, tok, rest)) : s = gap ++ tok ++ rest := by
  induction s generalizing gap tok rest with
  | nil => simp [findToken] at h
  | cons c cs ih =>
    simp only [findToken] at h
    split at h
    · rename_i hc
      cases hsc : scanClose cs with
      | some p =>
        obtain ⟨content, r⟩ := p
        rw [hsc] at h
        simp only [Option.some.injEq, Prod.mk.injEq] at h
        obtain ⟨h1, h2, h3⟩ := h
        subst h1
        subst h2
        subst h3
        rw [hc, scanClose_decomp hsc]
        simp
      | none =>
        rw [hsc] at h
        cases hft : findToken cs with
        | none => rw [hft] at h; exact absurd h (by simp)
        | some q =>
          obtain ⟨g', t', r'⟩ := q
          rw [hft] at h
          simp only [Option.some.injEq, Prod.mk.injEq] at h
          obtain ⟨h1, h2, h3⟩ := h
          subst h1
          subst h2
          subst h3
          have := ih hft
          simp [this]
    · cases hft : findToken cs with
      | none => rw [hft] at h; exact absurd h (by simp)
      | some q =>
        obtain ⟨g', t', r'⟩ := q
        rw [hft] at h
        simp only [Option.some.injEq, Prod.mk.injEq] at h
        obtain ⟨h1, h2, h3⟩ := h
        subst h1
        subst h2
        subst h3
        have := ih hft
        simp [this]

theorem findToken_tok_shape {s gap tok rest : JsStr}
    (h : findToken s = some (gap, tok, rest)) :
    ∃ content, tok = '[' :: (content ++ [']']) := by
  induction s generalizing gap tok rest with
  | nil => simp [findToken] at h
  | cons c cs ih =>
    simp only [findToken] at h
    split at h
    · cases hsc : scanClose cs with
      | some p =>
        obtain ⟨content, r⟩ := p
        rw [hsc] at h
        simp only [Option.some.injEq, Prod.mk.injEq] at h
        exact ⟨content, h.2.1.symm⟩
      | none =>
        rw [hsc] at h
        cases hft : findToken cs with
        | none => rw [hft] at h; exact absurd h (by simp)
        | some q =>
          obtain ⟨g', t', r'⟩ := q
          rw [hft] at h
          simp only [Option.some.injEq, Prod.mk.injEq] at h
          obtain ⟨c1, hc1⟩ := ih hft
          exact ⟨c1, h.2.1 ▸ hc1⟩
    · cases hft : findToken cs with
      | none => rw [hft] at h; exact absurd h (by simp)
      | some q =>
        obtain ⟨g', t', r'⟩ := q
        rw [hft] at h
        simp only [Option.some.injEq, Prod.mk.injEq] at h
        obtain ⟨c1, hc1⟩ := ih hft
        exact ⟨c1, h.2.1 ▸ hc1⟩

theorem bracketLike_tok {s gap tok rest : JsStr}
    (h : findToken s = some (gap, tok, rest)) : bracketLike tok = true := by
  obtain ⟨content, hc⟩ := findToken_tok_shape h
  subst hc
  simp only [bracketLike, List.head?_cons, Option.some.injEq]
  rw [← List.cons_append, List.getLast?_append_cons]
  simp

theorem findToken_none_not_bracketLike {s : JsStr} (hnl : ('\n' : Char) ∉ s)
    (h : findToken s = none) : bracketLike s = false := by
  cases s with
  | nil => simp [bracketLike]
  | cons c cs =>
    simp only [findToken] at h
    by_cases hc : c = '['
    · rw [if_pos hc] at h
      cases hsc : scanClose cs with
      | some p => obtain ⟨a, b⟩ := p; rw [hsc] at h; simp at h
      | none =>
        have hnc : (']' : Char) ∉ cs :=
          scanClose_none_no_close (fun hm => hnl (List.mem_cons_of_mem _ hm)) hsc
        simp only [bracketLike]
        cases hlast : (c :: cs).getLast? with
        | none => simp
        | some d =>
          by_cases hd : d = ']'
          · subst hd
            have hmem : (']' : Char) ∈ c :: cs := getLast?_some_mem hlast
            rcases List.mem_cons.mp hmem with h1 | h1
            · rw [hc] at h1; exact absurd h1.symm (by decide)
            · exact absurd h1 hnc
          · simp [hd]
    · simp [bracketLike, hc]

theorem findToken_gap_not_bracketLike {s gap tok rest : JsStr}
    (hnl : ('\n' : Char) ∉ s) (h : findToken s = some (gap, tok, rest)) :
    bracketLike gap = false := by
  induction s generalizing gap tok rest with
  | nil => simp [findToken] at h
  | cons c cs ih =>
    simp only [findToken] at h
    split at h
    · rename_i hc
      cases hsc : scanClose cs with
      | some p =>
        obtain ⟨content, r⟩ := p
        rw [hsc] at h
        simp only [Option.some.injEq, Prod.mk.injEq] at h
        obtain ⟨h1, h2, h3⟩ := h
        subst h1
        simp [bracketLike]
      | none =>
        rw [hsc] at h
        cases hft : findToken cs with
        | none => rw [hft] at h; exact absurd h (by simp)
        | some q =>
          obtain ⟨g', t', r'⟩ := q
          rw [hft] at h
          simp only [Option.some.injEq, Prod.mk.injEq] at h
          obtain ⟨h1, h2, h3⟩ := h
          subst h1
          have hnc : (']' : Char) ∉ cs :=
            scanClose_none_no_close (fun hm => hnl (List.mem_cons_of_mem _ hm)) hsc
          simp only [bracketLike]
          cases hlast : (c :: g').getLast? with
          | none => simp
          | some d =>
            by_cases hd : d = ']'
            · subst hd
              have hmem : (']' : Char) ∈ c :: g' := getLast?_some_mem hlast
              rcases List.mem_cons.mp hmem with h1 | h1
              · rw [hc] at h1; exact absurd h1.symm (by decide)
              · have hsub : g' ⊆ cs := by
                  have := findToken_decomp hft
                  intro x hx
                  rw [this]
                  simp [hx]
                exact absurd (hsub h1) hnc
            · simp [hd]
    · rename_i hc
      cases hft : findToken cs with
      | none => rw [hft] at h; exact absurd h (by simp)
      | some q =>
        obtain ⟨g', t', r'⟩ := q
        rw [hft] at h
        simp only [Option.some.injEq, Prod.mk.injEq] at h
        obtain ⟨h1, h2, h3⟩ := h
        subst h1
        simp [bracketLike, hc]

theorem filter_splitParts : ∀ (n : Nat) (s : JsStr), s.length ≤ n →
    ('\n' : Char) ∉ s →
    (splitParts s).filter bracketLike = bracketTokens s := by
  intro n
  induction n with
  | zero =>
    intro s hlen _
    have : s = [] := List.eq_nil_of_length_eq_zero (by omega)
    subst this
    decide
  | succ n ih =>
    intro s hlen hnl
    cases hft : findToken s with
    | none =>
      rw [splitParts_none hft, bracketTokens_none hft]
      simp [List.filter, findToken_none_not_bracketLike hnl hft]
    | some p =>
      obtain ⟨gap, tok, rest⟩ := p
      rw [splitParts_some hft, bracketTokens_some hft]
      have hdec := findToken_decomp hft
      have hrest_nl : ('\n' : Char) ∉ rest := by
        intro hm
        exact hnl (by rw [hdec]; simp [hm])
      have hrest_len : rest.length ≤ n := by
        have := findToken_rest_length hft
        omega
      simp only [List.filter_cons, findToken_gap_not_bracketLike hnl hft,
        bracketLike_tok hft]
      simp [ih rest hrest_len hrest_nl]

theorem parseLoop_foldl (segs : List JsStr) (h0 : Option JsStr)
    (opts0 : List JsStr) :
    segs.foldl
      (fun (acc : Option JsStr × List JsStr) item =>
        if startsWithJs item ("hint:".data) then (some (item.drop 5), acc.2)
        else (acc.1, acc.2 ++ [item]))
      (h0, opts0)
    = ((match specLastHint segs with | some x => some x | none => h0),
       opts0 ++ segs.filter (fun seg => !startsWithJs seg ("hint:".data))) := by
  induction segs generalizing h0 opts0 with
  | nil => simp [specLastHint]
  | cons seg segs ih =>
    by_cases hs : startsWithJs seg ("hint:".data)
    · simp only [List.foldl_cons, if_pos hs]
      rw [ih]
      simp only [specLastHint, List.filter_cons, hs]
      cases hfl : (segs.filter (fun seg => startsWithJs seg ("hint:".data))) with
      | nil => simp [specLastHint, hfl]
      | cons a l =>
        cases hgl : (a :: l).getLast? with
        | none => simp at hgl
        | some x => simp [specLastHint, hfl, List.getLast?_cons_cons, hgl]
    · simp only [List.foldl_cons, if_neg hs]
      rw [ih]
      simp only [specLastHint, List.filter_cons, hs]
      simp [List.append_assoc]

theorem parseBlankContent_spec (content : JsStr) :
    parseBlankContent content =
      { answer := (splitBar content).headD [],
        localOptions := ((splitBar content).drop 1).filter
          (fun seg => !startsWithJs seg ("hint:".data)),
        hint := specLastHint ((splitBar content).drop 1) } := by
  simp only [parseBlankContent]
  rw [parseLoop_foldl]
  cases h : specLastHint ((splitBar content).drop 1) <;> simp


/-- C3 (amended): for every single-line text (no newline characters), the
blank parser produces exactly one `BlankData` per complete bracket token of
the source regex, in document order; each token's content is split on `|`,
the first segment is the answer, the last segment starting with `hint:` sets
the hint to the text after `hint:`, and all remaining segments become the
local options in order with duplicates kept; `[]` yields an empty answer. -/
theorem useBlanks_parser_spec (t : JsStr) (hnl : ('\n' : Char) ∉ t) :
    (blanksData t).length = (bracketTokens t).length ∧
    blanksData t = (bracketTokens t).map
      (fun tok => parseBlankContent (tok.drop 1 |>.dropLast)) ∧
    (∀ content : JsStr,
      parseBlankContent content =
        { answer := (splitBar content).headD [],
          localOptions := ((splitBar content).drop 1).filter
            (fun seg => !startsWithJs seg ("hint:".data)),
          hint := specLastHint ((splitBar content).drop 1) }) ∧
    blanksData ['[', ']'] = [{ answer := [], localOptions := [], hint := none }] := by
  have hmain : blanksData t = (bracketTokens t).map
      (fun tok => parseBlankContent (tok.drop 1 |>.dropLast)) := by
    rw [blanksData, filter_splitParts t.length t le_rfl hnl]
  exact ⟨by rw [hmain]; simp, hmain, parseBlankContent_spec, by decide⟩

theorem useBlanks_parser_spec_witness :
    (('\n' : Char) ∉ ("Der [Mann|hint:male adult] geht.".data)) ∧
    blanksData ("Der [Mann|hint:male adult] geht.".data)
      = [{ answer := "Mann".data, localOptions := [],
           hint := some ("male adult".data) }] ∧
    (blanksData ("Der [Mann|hint:male adult] geht.".data)).length
      = (bracketTokens ("Der [Mann|hint:male adult] geht.".data)).length :=
  ⟨by decide, by decide, (useBlanks_parser_spec _ (by decide)).1⟩

/-- C3 counterexample: the text `"[x\ny]"` contains no complete bracket
token of the source regex (`.` cannot cross the newline), yet the parser
produces one blank, because the whole unmatched text happens to pass the
`startsWith('[') && endsWith(']')` filter. -/
theorem useBlanks_parser_newline_cex :
    bracketTokens ("[x\ny]".data) = [] ∧
    blanksData ("[x\ny]".data)
      = [{ answer := "x\ny".data, localOptions := [], hint := none }] :=
  ⟨by decide, by decide⟩

theorem allCorrect_zip_iff : ∀ (xs ys : List JsStr), xs.length = ys.length →
    (allCorrect ys xs = true ↔
      ∀ i, i < xs.length →
        jsToLower (jsTrim (xs.getD i [])) = jsToLower (ys.getD i [])) := by
  intro xs
  induction xs with
  | nil => intro ys h; simp [allCorrect]
  | cons x xs ih =>
    intro ys h
    cases ys with
    | nil => simp at h
    | cons y ys =>
      simp only [allCorrect, List.zip_cons_cons, List.all_cons, Bool.and_eq_true, beq_iff_eq]
      rw [show (List.all (List.zip xs ys) fun p => jsToLower (jsTrim p.1) == jsToLower p.2) = allCorrect ys xs from rfl]
      rw [ih ys (by simpa using h)]
      constructor
      · rintro ⟨h0, hrest⟩ i hi
        cases i with
        | zero => simpa using h0
        | succ j => simpa using hrest j (by simpa using hi)
      · intro hall
        refine ⟨by simpa using hall 0 (by simp), ?_⟩
        intro j hj
        simpa using hall (j + 1) (by simpa using hj)

/-- C4 (amended): the hook-level `allCorrect` is true iff every blank's
trimmed lowercased input equals that blank's lowercased - but not trimmed -
answer; the blanks' option lists and hints have no effect on the predicate
(it depends only on the answer projection). -/
theorem allCorrect_spec (blanks : List BlankData) (inputs : List JsStr)
    (hlen : inputs.length = blanks.length) :
    (allCorrect (blanks.map BlankData.answer) inputs = true ↔
      ∀ i, i < inputs.length →
        jsToLower (jsTrim (inputs.getD i []))
          = jsToLower ((blanks.getD i { answer := [], localOptions := [], hint := none }).answer)) ∧
    (∀ blanks₂ : List BlankData,
      blanks₂.map BlankData.answer = blanks.map BlankData.answer →
      allCorrect (blanks₂.map BlankData.answer) inputs
        = allCorrect (blanks.map BlankData.answer) inputs) := by
  have getD_map_answer : ∀ i, i < blanks.length →
      (blanks.map BlankData.answer).getD i []
        = (blanks.getD i { answer := [], localOptions := [], hint := none }).answer := by
    intro i hi
    rw [List.getD_eq_getElem?_getD, List.getD_eq_getElem?_getD, List.getElem?_map,
      List.getElem?_eq_getElem hi]
    simp
  constructor
  · rw [allCorrect_zip_iff inputs (blanks.map BlankData.answer) (by simpa using hlen)]
    constructor
    · intro hall i hi
      have := hall i hi
      rwa [getD_map_answer i (by omega)] at this
    · intro hall i hi
      have := hall i hi
      rwa [getD_map_answer i (by omega)]
  · intro blanks₂ heq
    rw [heq]

/-- C4 witness for `allCorrect_spec`. -/
theorem allCorrect_spec_witness :
    ([" mann".data] : List JsStr).length
      = ([{ answer := "Mann".data, localOptions := ["x".data], hint := none }] : List BlankData).length ∧
    allCorrect ([{ answer := "Mann".data, localOptions := ["x".data], hint := none }].map BlankData.answer)
      [" mann".data] = true :=
  ⟨by decide,
   (allCorrect_spec [{ answer := "Mann".data, localOptions := ["x".data], hint := none }]
      [" mann".data] (by decide)).1.mpr (by decide)⟩

/-- C4 counterexample: for a blank whose authored answer carries surrounding
whitespace (answer `" a "`, parsed from the token `"[ a ]"`), entering the
very same text `" a "` does not satisfy `allCorrect`: the code lowercases
but never trims the answer side, so the predicate is not "trimmed lowercase
value equals trimmed lowercase answer" (under which this input would be
correct, as the third conjunct shows). -/
theorem allCorrect_trim_cex :
    blanksData ("x[ a ]y".data)
      = [{ answer := " a ".data, localOptions := [], hint := none }] ∧
    allCorrect [" a ".data]
      (blanksRun [" a ".data] (initBlanksState 1) [.setValue 0 (" a ".data)]).inputs = false ∧
    jsTrim (jsToLower (" a ".data)) = jsTrim (jsToLower (" a ".data)) := by
  refine ⟨by decide, by decide, rfl⟩

/-- C9 (amended): `showAllAnswers` is idempotent, and `reset` after any
sequence of interactions restores `inputs`, `touched`, `submitted` and
`showAnswers` to their fresh-mount values - but it leaves the `blurred`
flags unchanged, unlike a fresh mount. -/
theorem blanks_reset_spec (answers : List JsStr) (ops : List BlanksOp) :
    (∀ s : BlanksState,
      blanksStep answers (blanksStep answers s .showAllAnswers) .showAllAnswers
        = blanksStep answers s .showAllAnswers) ∧
    ((blanksRun answers (initBlanksState answers.length) ops |>
        fun s => blanksStep answers s .resetAll) |> fun r =>
      r.inputs = (initBlanksState answers.length).inputs ∧
      r.touched = (initBlanksState answers.length).touched ∧
      r.submitted = false ∧ r.showAnswers = false) :=
  ⟨fun _ => rfl, rfl, rfl, rfl, rfl⟩

/-- C9 counterexample: `reset` does not clear the `blurred` flags, so the
state after blur-then-reset differs from the fresh-mount state (which the
claim says it must equal): its blurred vector is `[true]`, not `[false]`. -/
theorem blanks_reset_cex :
    blanksRun [['a']] (initBlanksState 1) [.blurField 0, .resetAll]
      ≠ initBlanksState 1 ∧
    (blanksRun [['a']] (initBlanksState 1) [.blurField 0, .resetAll]).blurred
      = [true] := by
  refine ⟨by decide, by decide⟩

/-- C2 (amended): for every lesson path, exercise total and ledger,
`getLessonProgress` reports `completed = min(total, number of completed
matching entries)`; the percentage is 0 when `total = 0` and, for
`total > 0`, it is `Math.round((completed/total)*100)` computed in IEEE-754
double arithmetic - which agrees with half-up rounding of the exact
rational for every denominator up to 32, but not in general (the smallest
divergent input is 23 of 40, where the double computation yields 57 while
the exact rational 57.5 would round to 58); 10 completed entries against a
total of 6 still report completed 6 and percentage 100, never 10. -/
theorem getLessonProgress_spec (lessonPath : JsStr) (total : Nat)
    (ledger : List ExerciseProgress) :
    ((getLessonProgress lessonPath total ledger).completedExercises
      = min total (ledger.countP fun p => p.lessonPath == lessonPath && p.completed)) ∧
    ((getLessonProgress lessonPath total ledger).percentage
      = if total = 0 then 0
        else jsPercentFloat (getLessonProgress lessonPath total ledger).completedExercises total) ∧
    (getLessonProgress lessonPath total ledger).totalExercises = total ∧
    (∀ t' < 33, ∀ c' ≤ t', jsPercentFloat c' t' = specRound100 c' t') ∧
    (getLessonProgress ("L".data) 6
        (List.replicate 10
          { exerciseId := [], lessonPath := "L".data, completed := true })).completedExercises
      = 6 ∧
    (getLessonProgress ("L".data) 6
        (List.replicate 10
          { exerciseId := [], lessonPath := "L".data, completed := true })).percentage
      = 100 := by
  refine ⟨?_, ?_, rfl, by decide, by decide, by decide⟩
  · simp only [getLessonProgress, List.countP_eq_length_filter]
    exact Nat.min_comm _ _
  · simp only [getLessonProgress]
    by_cases h : total = 0
    · simp [h]
    · simp [h, Nat.pos_of_ne_zero h]

/-- C2 witness for `getLessonProgress_spec`: the small-denominator
agreement instantiated at 8 of 16, and the capped concrete instance. -/
theorem getLessonProgress_spec_witness :
    jsPercentFloat 8 16 = specRound100 8 16 ∧
    (getLessonProgress ("L".data) 6
        (List.replicate 10
          { exerciseId := [], lessonPath := "L".data, completed := true })).completedExercises
      = 6 :=
  ⟨(getLessonProgress_spec ("L".data) 0 []).2.2.2.1 16 (by decide) 8 (by decide),
   (getLessonProgress_spec ("L".data) 0 []).2.2.2.2.1⟩

/-- C2 counterexample: the percentage is not half-up rounding of the exact
rational `completed/total*100`.  With 23 completed entries of a lesson
whose total is 40, the exact value is 57.5, whose half-up rounding is 58;
but the source computes `(23/40)*100` in binary64 doubles, where the
product evaluates to 57.49999999999999289..., so `Math.round` returns 57 -
and the code's reported percentage is 57. -/
theorem getLessonProgress_float_cex :
    (getLessonProgress ("L".data) 40
        (List.replicate 23
          { exerciseId := [], lessonPath := "L".data, completed := true })).completedExercises
      = 23 ∧
    (getLessonProgress ("L".data) 40
        (List.replicate 23
          { exerciseId := [], lessonPath := "L".data, completed := true })).percentage
      = 57 ∧
    specRound100 23 40 = 58 := by
  refine ⟨by decide, by decide, by decide⟩

theorem toInt32_congr {a b : Int} (h : a % 4294967296 = b % 4294967296) :
    toInt32 a = toInt32 b := by
  simp only [toInt32, h]

theorem simpleHashStep_spec (h : Int) (c : Nat) :
    simpleHashStep h c = toInt32 (31 * h + c) := by
  have key : (toInt32 (h * 32) - h + c) % 4294967296
      = (31 * h + c) % 4294967296 := by
    have hm : toInt32 (h * 32) % 4294967296 = (h * 32) % 4294967296 := by
      simp only [toInt32]
      split <;> omega
    omega
  exact toInt32_congr key

/-- C6: the exercise identity is `canonicalize(lessonPath) ++ ":" ++ type ++
":" ++ stableHash(content)`, where `stableHash` is the deterministic 32-bit
rolling polynomial hash `h ← toInt32 (31*h + code)` started at 0, rendered
as the decimal digits of its absolute value; and the id computed at mount
does not depend on the shuffled token-bank order, so two mounts of the same
(lessonPath, type, content) yield the same id whatever the shuffle. -/
theorem generateStableExerciseId_spec (base lessonPath exerciseType content : JsStr) :
    (generateStableExerciseId base lessonPath exerciseType content
      = normalizePath base lessonPath ++ ':' :: exerciseType ++ ':' ::
          numChars (Int.natAbs
            (content.foldl (fun h c => toInt32 (31 * h + c.toNat)) 0))) ∧
    (∀ bank₁ bank₂ : List JsStr,
      fillBlanksMountId base lessonPath content bank₁
        = fillBlanksMountId base lessonPath content bank₂) := by
  constructor
  · have hfold : (content.foldl (fun h c => simpleHashStep h c.toNat) 0)
        = content.foldl (fun h c => toInt32 (31 * h + c.toNat)) 0 := by
      have : (fun (h : Int) (c : Char) => simpleHashStep h c.toNat)
          = fun (h : Int) (c : Char) => toInt32 (31 * h + c.toNat) := by
        funext h c
        exact simpleHashStep_spec h c.toNat
      rw [this]
    rw [generateStableExerciseId, simpleHash, hfold]
  · intro bank₁ bank₂
    rfl

theorem mem_eraseA {m : List (JsStr × JsStr)} {k : JsStr} {p : JsStr × JsStr} :
    p ∈ eraseA m k ↔ p ∈ m ∧ p.1 ≠ k := by
  simp [eraseA, List.mem_filter]

theorem find?_key_eq_none {m : List (JsStr × JsStr)} {k : JsStr}
    (h : ¬(m.find? (fun p => p.1 == k)).isSome = true) :
    ∀ p ∈ m, p.1 ≠ k := by
  intro p hp
  rw [Option.not_isSome_iff_eq_none, List.find?_eq_none] at h
  simpa using h p hp

theorem mem_insertA {m : List (JsStr × JsStr)} {k v : JsStr} {p : JsStr × JsStr} :
    p ∈ insertA m k v ↔ p = (k, v) ∨ (p ∈ m ∧ p.1 ≠ k) := by
  unfold insertA
  split
  · rename_i hsome
    rw [List.find?_isSome] at hsome
    obtain ⟨q, hq, hqk⟩ := hsome
    simp only [List.mem_map]
    constructor
    · rintro ⟨r, hr, hrEq⟩
      by_cases hrk : r.1 == k
      · left
        rw [if_pos hrk] at hrEq
        exact hrEq.symm
      · right
        rw [if_neg hrk] at hrEq
        subst hrEq
        exact ⟨hr, by simpa using hrk⟩
    · rintro (rfl | ⟨hp, hpk⟩)
      · exact ⟨q, hq, by simp [hqk]⟩
      · exact ⟨p, hp, by simp [hpk]⟩
  · rename_i hnone
    have hk := find?_key_eq_none hnone
    simp only [List.mem_append, List.mem_singleton]
    constructor
    · rintro (hp | rfl)
      · exact Or.inr ⟨hp, hk p hp⟩
      · exact Or.inl rfl
    · rintro (rfl | ⟨hp, _⟩)
      · exact Or.inr rfl
      · exact Or.inl hp

theorem keys_insertA_nodup {m : List (JsStr × JsStr)} {k v : JsStr}
    (h : (m.map Prod.fst).Nodup) : ((insertA m k v).map Prod.fst).Nodup := by
  unfold insertA
  split
  · have heq : (m.map (fun p => if p.1 == k then (k, v) else p)).map Prod.fst
        = m.map Prod.fst := by
      rw [List.map_map]
      apply List.map_congr_left
      intro p _
      by_cases hpk : p.1 == k
      · simp only [Function.comp, if_pos hpk]
        exact (beq_iff_eq.mp hpk).symm
      · simp [Function.comp, hpk]
    rw [heq]
    exact h
  · rename_i hnone
    have hk := find?_key_eq_none hnone
    rw [List.map_append]
    refine List.Nodup.append h (List.nodup_singleton k) ?_
    intro x hx hx'
    simp only [List.map_cons, List.map_nil, List.mem_singleton] at hx'
    subst hx'
    obtain ⟨p, hp, hpk⟩ := List.mem_map.mp hx
    exact hk p hp hpk

theorem keys_eraseA_nodup {m : List (JsStr × JsStr)} {k : JsStr}
    (h : (m.map Prod.fst).Nodup) : ((eraseA m k).map Prod.fst).Nodup := by
  exact ((List.filter_sublist m).map Prod.fst).nodup h

theorem findSlotOf_some_mem {m : List (JsStr × JsStr)} {v k : JsStr}
    (h : findSlotOf m v = some k) : (k, v) ∈ m := by
  simp only [findSlotOf, Option.map_eq_some'] at h
  obtain ⟨p, hp, hpk⟩ := h
  have hmem := List.mem_of_find?_eq_some hp
  have hval := List.find?_some hp
  rw [beq_iff_eq] at hval
  have : p = (k, v) := by
    cases p
    simp_all
  rwa [this] at hmem

theorem findSlotOf_none {m : List (JsStr × JsStr)} {v : JsStr}
    (h : findSlotOf m v = none) : ∀ p ∈ m, p.2 ≠ v := by
  intro p hp
  simp only [findSlotOf, Option.map_eq_none'] at h
  have := List.find?_eq_none.mp h p hp
  simpa using this

theorem lookupA_some_mem {m : List (JsStr × JsStr)} {k v : JsStr}
    (h : lookupA m k = some v) : (k, v) ∈ m := by
  simp only [lookupA, Option.map_eq_some'] at h
  obtain ⟨p, hp, hpv⟩ := h
  have hmem := List.mem_of_find?_eq_some hp
  have hkey := List.find?_some hp
  rw [beq_iff_eq] at hkey
  have : p = (k, v) := by
    cases p
    simp_all
  rwa [this] at hmem

theorem lookupA_none {m : List (JsStr × JsStr)} {k : JsStr}
    (h : lookupA m k = none) : ∀ p ∈ m, p.1 ≠ k := by
  intro p hp
  simp only [lookupA, Option.map_eq_none'] at h
  have := List.find?_eq_none.mp h p hp
  simpa using this

theorem keyNodup_functional {m : List (JsStr × JsStr)}
    (hkeys : (m.map Prod.fst).Nodup) :
    ∀ {k v w : JsStr}, (k, v) ∈ m → (k, w) ∈ m → v = w := by
  induction m with
  | nil => simp
  | cons p m ih =>
    intro k v w h1 h2
    simp only [List.map_cons, List.nodup_cons] at hkeys
    obtain ⟨hknotin, hrest⟩ := hkeys
    rcases List.mem_cons.mp h1 with h1 | h1 <;> rcases List.mem_cons.mp h2 with h2 | h2
    · injection h1.trans h2.symm
    · exact absurd (by rw [← h1]; simpa using List.mem_map_of_mem Prod.fst h2) hknotin
    · exact absurd (by rw [← h2]; simpa using List.mem_map_of_mem Prod.fst h1) hknotin
    · exact ih hrest h1 h2

theorem mem_lookupA {m : List (JsStr × JsStr)} {k v : JsStr}
    (hkeys : (m.map Prod.fst).Nodup) (h : (k, v) ∈ m) : lookupA m k = some v := by
  cases hl : lookupA m k with
  | none => exact absurd rfl (lookupA_none hl (k, v) h)
  | some w =>
    rw [keyNodup_functional hkeys h (lookupA_some_mem hl)]
theorem contains_iff_memL {l : List JsStr} {x : JsStr} :
    l.contains x = true ↔ x ∈ l := by
  simp [List.contains, List.elem_iff]

theorem placeCore_wf {s : PlaceState} {a t : JsStr} (hwf : placeWf s)
    (hguard : lookupA s.droppedItems t ≠ some a) :
    placeWf (placeCore s a t) := by
  obtain ⟨hbank, hkeys, hinj, hdisj⟩ := hwf
  have hta : (t, a) ∉ s.droppedItems := fun hm => hguard (mem_lookupA hkeys hm)
  have hdrag1_sub : ∀ i ∈ (if s.dragItems.contains a
        then s.dragItems.filter (fun i => !(i == a)) else s.dragItems),
      i ∈ s.dragItems ∧ i ≠ a := by
    intro i hi
    split at hi
    · rw [List.mem_filter] at hi
      exact ⟨hi.1, by simpa using hi.2⟩
    · rename_i hc
      refine ⟨hi, ?_⟩
      intro heq
      exact hc (contains_iff_memL.mpr (heq ▸ hi))
  have hdrag1_nodup : (if s.dragItems.contains a
        then s.dragItems.filter (fun i => !(i == a)) else s.dragItems).Nodup := by
    split
    · exact hbank.filter _
    · exact hbank
  cases hfs : findSlotOf s.droppedItems a with
  | some src =>
    have hsrcmem : (src, a) ∈ s.droppedItems := findSlotOf_some_mem hfs
    have hsrct : src ≠ t := fun h => hta (h ▸ hsrcmem)
    have ha_uniq : ∀ p ∈ s.droppedItems, p.2 = a → p.1 = src := by
      intro p hp hpa
      exact hinj p hp (src, a) hsrcmem (by simpa using hpa)
    have hM : ∀ p, p ∈ eraseA (insertA s.droppedItems t a) src ↔
        p = (t, a) ∨ (p ∈ s.droppedItems ∧ p.1 ≠ t ∧ p.1 ≠ src) := by
      intro p
      rw [mem_eraseA, mem_insertA]
      constructor
      · rintro ⟨(rfl | ⟨hp, hpt⟩), hps⟩
        · exact Or.inl rfl
        · exact Or.inr ⟨hp, hpt, hps⟩
      · rintro (rfl | ⟨hp, hpt, hps⟩)
        · exact ⟨Or.inl rfl, by simpa using hsrct.symm⟩
        · exact ⟨Or.inr ⟨hp, hpt⟩, hps⟩
    have hMnodup : ((eraseA (insertA s.droppedItems t a) src).map Prod.fst).Nodup :=
      keys_eraseA_nodup (keys_insertA_nodup hkeys)
    cases hit : lookupA s.droppedItems t with
    | some prev =>
      have hprevmem : (t, prev) ∈ s.droppedItems := lookupA_some_mem hit
      have hprev_a : prev ≠ a := fun h => hta (h ▸ hprevmem)
      have hprev_bank : prev ∉ s.dragItems := fun h => hdisj prev h (t, prev) hprevmem rfl
      simp only [placeCore, hfs, hit]
      refine ⟨?_, hMnodup, ?_, ?_⟩
      · refine List.Nodup.append hdrag1_nodup (List.nodup_singleton _) ?_
        intro x hx hx'
        rw [List.mem_singleton] at hx'
        subst hx'
        exact hprev_bank (hdrag1_sub x hx).1
      · intro p hp q hq hpq
        rw [hM] at hp hq
        rcases hp with rfl | ⟨hp, hpt, hps⟩ <;> rcases hq with rfl | ⟨hq, hqt, hqs⟩
        · rfl
        · exact absurd (ha_uniq q hq (by simpa using hpq.symm)) hqs
        · exact absurd (ha_uniq p hp (by simpa using hpq)) hps
        · exact hinj p hp q hq hpq
      · intro i hi p hp
        rw [hM] at hp
        rcases List.mem_append.mp hi with hi1 | hi1
        · obtain ⟨hib, hia⟩ := hdrag1_sub i hi1
          rcases hp with rfl | ⟨hp, _, _⟩
          · simpa using fun h => hia h.symm
          · exact hdisj i hib p hp
        · rw [List.mem_singleton] at hi1
          subst hi1
          rcases hp with rfl | ⟨hp, hpt, _⟩
          · simpa using fun h => hprev_a h.symm
          · intro hpv
            exact hpt (hinj p hp (t, i) hprevmem (by simpa using hpv))
    | none =>
      have hno_t : ∀ p ∈ s.droppedItems, p.1 ≠ t := lookupA_none hit
      simp only [placeCore, hfs, hit]
      refine ⟨hdrag1_nodup, hMnodup, ?_, ?_⟩
      · intro p hp q hq hpq
        rw [hM] at hp hq
        rcases hp with rfl | ⟨hp, hpt, hps⟩ <;> rcases hq with rfl | ⟨hq, hqt, hqs⟩
        · rfl
        · exact absurd (ha_uniq q hq (by simpa using hpq.symm)) hqs
        · exact absurd (ha_uniq p hp (by simpa using hpq)) hps
        · exact hinj p hp q hq hpq
      · intro i hi p hp
        rw [hM] at hp
        obtain ⟨hib, hia⟩ := hdrag1_sub i hi
        rcases hp with rfl | ⟨hp, _, _⟩
        · simpa using fun h => hia h.symm
        · exact hdisj i hib p hp
  | none =>
    have hno_a : ∀ p ∈ s.droppedItems, p.2 ≠ a := findSlotOf_none hfs
    have hMnodup : ((insertA s.droppedItems t a).map Prod.fst).Nodup :=
      keys_insertA_nodup hkeys
    cases hit : lookupA s.droppedItems t with
    | some prev =>
      have hprevmem : (t, prev) ∈ s.droppedItems := lookupA_some_mem hit
      have hprev_a : prev ≠ a := fun h => hta (h ▸ hprevmem)
      have hprev_bank : prev ∉ s.dragItems := fun h => hdisj prev h (t, prev) hprevmem rfl
      simp only [placeCore, hfs, hit]
      refine ⟨?_, hMnodup, ?_, ?_⟩
      · refine List.Nodup.append hdrag1_nodup (List.nodup_singleton _) ?_
        intro x hx hx'
        rw [List.mem_singleton] at hx'
        subst hx'
        exact hprev_bank (hdrag1_sub x hx).1
      · intro p hp q hq hpq
        rw [mem_insertA] at hp hq
        rcases hp with rfl | ⟨hp, hpt⟩ <;> rcases hq with rfl | ⟨hq, hqt⟩
        · rfl
        · exact absurd (by simpa using hpq.symm) (hno_a q hq)
        · exact absurd (by simpa using hpq) (hno_a p hp)
        · exact hinj p hp q hq hpq
      · intro i hi p hp
        rw [mem_insertA] at hp
        rcases List.mem_append.mp hi with hi1 | hi1
        · obtain ⟨hib, hia⟩ := hdrag1_sub i hi1
          rcases hp with rfl | ⟨hp, _⟩
          · simpa using fun h => hia h.symm
          · exact hdisj i hib p hp
        · rw [List.mem_singleton] at hi1
          subst hi1
          rcases hp with rfl | ⟨hp, hpt⟩
          · simpa using fun h => hprev_a h.symm
          · intro hpv
            exact hpt (hinj p hp (t, i) hprevmem (by simpa using hpv))
    | none =>
      simp only [placeCore, hfs, hit]
      refine ⟨hdrag1_nodup, hMnodup, ?_, ?_⟩
      · intro p hp q hq hpq
        rw [mem_insertA] at hp hq
        rcases hp with rfl | ⟨hp, hpt⟩ <;> rcases hq with rfl | ⟨hq, hqt⟩
        · rfl
        · exact absurd (by simpa using hpq.symm) (hno_a q hq)
        · exact absurd (by simpa using hpq) (hno_a p hp)
        · exact hinj p hp q hq hpq
      · intro i hi p hp
        rw [mem_insertA] at hp
        obtain ⟨hib, hia⟩ := hdrag1_sub i hi
        rcases hp with rfl | ⟨hp, _⟩
        · simpa using fun h => hia h.symm
        · exact hdisj i hib p hp

theorem placeWf_step (s : PlaceState) (op : PlaceOp) (hwf : placeWf s) :
    placeWf (placeStep s op) := by
  obtain ⟨hbank, hkeys, hinj, hdisj⟩ := hwf
  cases op with
  | dragEndOver a t =>
    simp only [placeStep, dragEndOver]
    split
    · exact ⟨hbank, hkeys, hinj, hdisj⟩
    · rename_i hne
      refine placeCore_wf ⟨hbank, hkeys, hinj, hdisj⟩ ?_
      intro hlk
      have hmem : (t, a) ∈ s.droppedItems := lookupA_some_mem hlk
      cases hfs : findSlotOf s.droppedItems a with
      | none => exact findSlotOf_none hfs (t, a) hmem rfl
      | some k =>
        have hkmem : (k, a) ∈ s.droppedItems := findSlotOf_some_mem hfs
        have hkt : k = t := hinj (k, a) hkmem (t, a) hmem rfl
        exact hne (by rw [hfs, hkt])
  | dragEndOutside a =>
    simp only [placeStep, dragEndOutside]
    cases hfs : findSlotOf s.droppedItems a with
    | some src =>
      have hsrcmem : (src, a) ∈ s.droppedItems := findSlotOf_some_mem hfs
      have ha_bank : a ∉ s.dragItems := fun h => hdisj a h (src, a) hsrcmem rfl
      refine ⟨?_, keys_eraseA_nodup hkeys, ?_, ?_⟩
      · refine List.Nodup.append hbank (List.nodup_singleton _) ?_
        intro x hx hx'
        rw [List.mem_singleton] at hx'
        subst hx'
        exact ha_bank hx
      · intro p hp q hq hpq
        rw [mem_eraseA] at hp hq
        exact hinj p hp.1 q hq.1 hpq
      · intro i hi p hp
        rw [mem_eraseA] at hp
        rcases List.mem_append.mp hi with hi1 | hi1
        · exact hdisj i hi1 p hp.1
        · have hia : i = a := by simpa using hi1
          rw [hia]
          intro hpv
          exact hp.2 (hinj p hp.1 (src, a) hsrcmem (by simpa using hpv))
    | none => exact ⟨hbank, hkeys, hinj, hdisj⟩
  | wordClick i =>
    exact ⟨hbank, hkeys, hinj, hdisj⟩
  | dropZoneClick d =>
    simp only [placeStep, dropZoneClick]
    cases hsel : s.selectedId with
    | some sel =>
      simp only
      split
      · exact ⟨hbank, hkeys, hinj, hdisj⟩
      · rename_i hne
        exact placeCore_wf ⟨hbank, hkeys, hinj, hdisj⟩ hne
    | none =>
      cases hcur : lookupA s.droppedItems d with
      | some cur =>
        have hcurmem : (d, cur) ∈ s.droppedItems := lookupA_some_mem hcur
        have hc_bank : cur ∉ s.dragItems := fun h => hdisj cur h (d, cur) hcurmem rfl
        refine ⟨?_, keys_eraseA_nodup hkeys, ?_, ?_⟩
        · refine List.Nodup.append hbank (List.nodup_singleton _) ?_
          intro x hx hx'
          rw [List.mem_singleton] at hx'
          subst hx'
          exact hc_bank hx
        · intro p hp q hq hpq
          rw [mem_eraseA] at hp hq
          exact hinj p hp.1 q hq.1 hpq
        · intro i hi p hp
          rw [mem_eraseA] at hp
          rcases List.mem_append.mp hi with hi1 | hi1
          · exact hdisj i hi1 p hp.1
          · have hic : i = cur := by simpa using hi1
            rw [hic]
            intro hpv
            exact hp.2 (hinj p hp.1 (d, cur) hcurmem (by simpa using hpv))
      | none => exact ⟨hbank, hkeys, hinj, hdisj⟩

theorem placeWf_run (ops : List PlaceOp) (s : PlaceState) (hwf : placeWf s) :
    placeWf (placeRun s ops) := by
  induction ops generalizing s with
  | nil => exact hwf
  | cons op ops ih => exact ih _ (placeWf_step s op hwf)

/-- C1: from any initial state (distinct token ids all in the bank, nothing
placed), every sequence of drag-place, drop-outside, word-click and
zone-click operations preserves the placement invariant - bank ids
distinct, slot keys distinct, no token id on two slots, no token id both in
the bank and placed - and placing onto an occupied slot returns the
previous occupant to the bank within the same transition, in both the drag
and the click-to-place modality. -/
theorem placement_invariant (ops : List PlaceOp) (bank₀ : List JsStr)
    (h₀ : bank₀.Nodup) :
    placeWf (placeRun (initPlaceState bank₀) ops) ∧
    (∀ s : PlaceState, placeWf s → ∀ a t prev,
      lookupA s.droppedItems t = some prev → prev ≠ a →
      prev ∈ (dragEndOver s a t).dragItems) ∧
    (∀ s : PlaceState, placeWf s → ∀ sel d prev, s.selectedId = some sel →
      lookupA s.droppedItems d = some prev → prev ≠ sel →
      prev ∈ (dropZoneClick s d).dragItems) := by
  refine ⟨?_, ?_, ?_⟩
  · refine placeWf_run ops _ ⟨h₀, ?_, ?_, ?_⟩ <;> simp [initPlaceState]
  · intro s hwf a t prev hlk hne
    simp only [dragEndOver]
    split
    · rename_i hfs
      have hmem : (t, a) ∈ s.droppedItems := findSlotOf_some_mem hfs
      have := mem_lookupA hwf.2.1 hmem
      rw [this] at hlk
      exact absurd (by simpa using hlk.symm) hne
    · cases hfs : findSlotOf s.droppedItems a with
      | some src => simp [placeCore, hfs, hlk]
      | none => simp [placeCore, hfs, hlk]
  · intro s hwf sel d prev hsel hlk hne
    simp only [dropZoneClick, hsel]
    have hguard : ¬(lookupA s.droppedItems d = some sel) := by
      rw [hlk]
      simpa using hne
    rw [if_neg hguard]
    cases hfs : findSlotOf s.droppedItems sel with
    | some src => simp [placeCore, hfs, hlk]
    | none => simp [placeCore, hfs, hlk]

/-- C1 witness for `placement_invariant`: a concrete click-to-place run
whose final state satisfies the invariant, and a concrete eviction of an
occupant back to the bank. -/
theorem placement_invariant_witness :
    (["w1".data, "w2".data] : List JsStr).Nodup ∧
    placeWf (placeRun (initPlaceState ["w1".data, "w2".data])
      [.wordClick ("w1".data), .dropZoneClick ("s1".data),
       .wordClick ("w2".data), .dropZoneClick ("s1".data)]) ∧
    "w1".data ∈ (dropZoneClick
      { dragItems := ["w2".data]
      , droppedItems := [("s1".data, "w1".data)]
      , selectedId := some ("w2".data) } ("s1".data)).dragItems :=
  ⟨by decide,
   (placement_invariant
      [.wordClick ("w1".data), .dropZoneClick ("s1".data),
       .wordClick ("w2".data), .dropZoneClick ("s1".data)]
      ["w1".data, "w2".data] (by decide)).1,
   (placement_invariant [] ["w1".data, "w2".data] (by decide)).2.2
     { dragItems := ["w2".data]
     , droppedItems := [("s1".data, "w1".data)]
     , selectedId := some ("w2".data) }
     (by decide) ("w2".data) ("s1".data) ("w1".data) rfl (by decide) (by decide)⟩

/-- C7 (amended): multi-select is enabled exactly when the explicit flag is
set or the answer key contains a comma; the validator accepts iff the
number of selected index strings equals the number of comma-separated
answer segments and every selected index occurs among the trimmed segments.
When the trimmed segments are pairwise distinct and the selection is
duplicate-free (selections built by handleSelect always are), this
coincides with exact set equality; for duplicate answer segments it is
strictly stronger than set equality. -/
theorem quiz_validator_spec (answer : JsStr) (selected : List JsStr)
    (multiple : Bool) :
    (quizIsMultiple answer multiple = (multiple || answer.contains ',')) ∧
    (quizIsCorrect answer selected = true ↔
      selected.length = (quizCorrectAnswers answer).length ∧
      ∀ x ∈ selected, x ∈ quizCorrectAnswers answer) ∧
    ((quizCorrectAnswers answer).Nodup → selected.Nodup →
      (quizIsCorrect answer selected = true ↔
        ∀ x : JsStr, x ∈ selected ↔ x ∈ quizCorrectAnswers answer)) := by
  have hbase : quizIsCorrect answer selected = true ↔
      selected.length = (quizCorrectAnswers answer).length ∧
      ∀ x ∈ selected, x ∈ quizCorrectAnswers answer := by
    simp [quizIsCorrect, List.all_eq_true, contains_iff_memL]
  refine ⟨rfl, hbase, ?_⟩
  intro hnc hns
  rw [hbase]
  constructor
  · rintro ⟨hlen, hsub⟩
    have hperm : selected.Perm (quizCorrectAnswers answer) :=
      (List.subperm_of_subset hns hsub).perm_of_length_le (by omega)
    exact fun x => hperm.mem_iff
  · intro hiff
    have hperm : selected.Perm (quizCorrectAnswers answer) :=
      (List.perm_ext_iff_of_nodup hns hnc).mpr hiff
    exact ⟨hperm.length_eq, fun x hx => (hiff x).mp hx⟩

/-- C7 witness for `quiz_validator_spec`: for answer "1,3", selecting
{"1","3"} is accepted, {"1"} and {"1","2","3"} are rejected. -/
theorem quiz_validator_spec_witness :
    (quizCorrectAnswers ("1,3".data)).Nodup ∧
    (["1".data, "3".data] : List JsStr).Nodup ∧
    quizIsCorrect ("1,3".data) ["1".data, "3".data] = true ∧
    quizIsCorrect ("1,3".data) ["1".data] = false ∧
    quizIsCorrect ("1,3".data) ["1".data, "2".data, "3".data] = false :=
  ⟨by decide, by decide,
   (quiz_validator_spec ("1,3".data) ["1".data, "3".data] false).2.1.mpr
     (by decide),
   by decide, by decide⟩

/-- C7 counterexample: for the degenerate answer key "1,1" the parsed index
set is {"1"}; the single selection ["1"] (reachable via handleSelect, since
the comma enables multi-select) is exactly set-equal to the parsed answer
set, yet the validator rejects it - the code compares the selection count
against the segment count (2), not set equality. -/
theorem quiz_setEq_cex :
    quizIsMultiple ("1,1".data) false = true ∧
    quizHandleSelect true [] 0 = ["1".data] ∧
    (["1".data] : List JsStr).toFinset = (quizCorrectAnswers ("1,1".data)).toFinset ∧
    quizIsCorrect ("1,1".data) ["1".data] = false := by
  refine ⟨by decide, by decide, by decide, by decide⟩

/-- C10: in FillBlanks drag mode, the overall-correct predicate holds iff
every blank's drop slot is filled and the text of the token placed there is
exactly equal to that blank's answer, under case-sensitive, untrimmed
string equality; any unfilled slot makes the predicate false.  (The
hypothesis that placed ids are nonempty strings holds for every generated
item id `item-...`; the empty string would be falsy in the JS conjunct.) -/
theorem dragAllCorrect_spec (answers : List JsStr) (allItems : List DragItem)
    (droppedItems : List (JsStr × JsStr))
    (hids : ∀ p ∈ droppedItems, p.2 ≠ []) :
    dragAllCorrect answers allItems droppedItems = true ↔
      ∀ idx, idx < answers.length →
        ∃ droppedId, lookupA droppedItems (dropKey idx) = some droppedId ∧
          getItemText allItems droppedId = answers.getD idx [] := by
  simp only [dragAllCorrect, List.all_eq_true, List.mem_range]
  constructor
  · intro hall idx hidx
    have := hall idx hidx
    cases hlk : lookupA droppedItems (dropKey idx) with
    | none => rw [hlk] at this; simp at this
    | some droppedId =>
      rw [hlk] at this
      simp only [Bool.and_eq_true, beq_iff_eq] at this
      exact ⟨droppedId, rfl, this.2⟩
  · intro hall idx hidx
    obtain ⟨droppedId, hlk, htext⟩ := hall idx hidx
    rw [hlk]
    have hne : droppedId ≠ [] := hids _ (lookupA_some_mem hlk)
    simp [hne, htext]

/-- C10 witness for `dragAllCorrect_spec`: one filled slot holding the
token whose text matches the answer. -/
theorem dragAllCorrect_spec_witness :
    (∀ p ∈ ([(("drop-0".data : JsStr), ("item-0-x".data : JsStr))]
        : List (JsStr × JsStr)), p.2 ≠ []) ∧
    dragAllCorrect ["Mann".data]
      [{ id := "item-0-x".data, text := "Mann".data }]
      [("drop-0".data, "item-0-x".data)] = true :=
  ⟨by decide,
   (dragAllCorrect_spec ["Mann".data]
      [{ id := "item-0-x".data, text := "Mann".data }]
      [("drop-0".data, "item-0-x".data)] (by decide)).mpr
     (by
       intro idx hidx
       simp only [List.length_singleton, Nat.lt_one_iff] at hidx
       subst hidx
       exact ⟨"item-0-x".data, by decide, by decide⟩)⟩

theorem matchCount_aligns : ∀ (ts sps : List JsStr),
    SpecAligns ts sps (matchCount ts sps) := by
  intro ts
  induction ts with
  | nil => intro sps; exact SpecAligns.nilTarget sps
  | cons t ts ih =>
    intro sps
    match sps with
    | [] => exact SpecAligns.nilSpoken _
    | sp :: sps =>
      by_cases h0 : fuzzyEq t sp = true
      · rw [show matchCount (t :: ts) (sp :: sps) = 1 + matchCount ts sps by
          simp [matchCount, h0]]
        rw [Nat.add_comm]
        exact SpecAligns.matched h0 (ih sps)
      · match sps with
        | [] =>
          rw [show matchCount (t :: ts) [sp] = matchCount ts [sp] by
            simp [matchCount, h0]]
          exact SpecAligns.skipTarget (ih [sp])
        | sp1 :: sps1 =>
          by_cases h1 : fuzzyEq t sp1 = true
          · rw [show matchCount (t :: ts) (sp :: sp1 :: sps1)
                = 1 + matchCount ts sps1 by simp [matchCount, h0, h1]]
            rw [Nat.add_comm]
            exact SpecAligns.lookahead1 h1 (ih sps1)
          · match sps1 with
            | [] =>
              rw [show matchCount (t :: ts) [sp, sp1] = matchCount ts [sp, sp1] by
                simp [matchCount, h0, h1]]
              exact SpecAligns.skipTarget (ih [sp, sp1])
            | sp2 :: sps2 =>
              by_cases h2 : fuzzyEq t sp2 = true
              · rw [show matchCount (t :: ts) (sp :: sp1 :: sp2 :: sps2)
                    = 1 + matchCount ts sps2 by simp [matchCount, h0, h1, h2]]
                rw [Nat.add_comm]
                exact SpecAligns.lookahead2 h2 (ih sps2)
              · rw [show matchCount (t :: ts) (sp :: sp1 :: sp2 :: sps2)
                    = matchCount ts (sp :: sp1 :: sp2 :: sps2) by
                  simp [matchCount, h0, h1, h2]]
                exact SpecAligns.skipTarget (ih (sp :: sp1 :: sp2 :: sps2))

/-- C8: the transcript matcher lowercases and strips punctuation from both
sides, tokenizes on whitespace (dropping empty spoken tokens), computes a
word-by-word alignment that is admissible in the claim's sense - exact
match, edit distance at most 1 when both words are longer than 3
characters, lookahead of up to 2 spoken words - and marks the exercise
correct exactly when the matched target count is at least 85% of the
target word count.  Concrete checks: a verbatim (differently punctuated)
transcript is accepted, an unrelated one is rejected. -/
theorem speech_matcher_spec (text spokenText : JsStr) :
    SpecAligns (speechTargetWords text) (speechSpokenWords spokenText)
      (matchCount (speechTargetWords text) (speechSpokenWords spokenText)) ∧
    (speechCorrect text spokenText = true ↔
      17 * (speechTargetWords text).length ≤
        20 * matchCount (speechTargetWords text) (speechSpokenWords spokenText)) ∧
    speechTargetWords text = (splitWsJs text).map speechNormalize ∧
    speechCorrect ("Der Mann geht".data) ("der mann geht.".data) = true ∧
    speechCorrect ("Der Mann geht".data) ("xxx".data) = false := by
  refine ⟨matchCount_aligns _ _, ?_, rfl, by decide, by decide⟩
  simp [speechCorrect]

theorem addCompleted_nodup {l : List ℚ} {t : ℚ} (h : l.Nodup) :
    (addCompleted l t).Nodup := by
  unfold addCompleted
  split
  · exact h
  · rename_i hni
    refine List.Nodup.append h (List.nodup_singleton t) ?_
    intro x hx hx'
    rw [List.mem_singleton] at hx'
    subst hx'
    exact hni hx

theorem mem_addCompleted {l : List ℚ} {t c : ℚ} :
    c ∈ addCompleted l t ↔ c ∈ l ∨ c = t := by
  unfold addCompleted
  split
  · rename_i hm
    constructor
    · exact Or.inl
    · rintro (h | rfl)
      · exact h
      · exact hm
  · simp

theorem completed_full_mem {cps l : List ℚ} (hnd : l.Nodup)
    (hsub : ∀ c ∈ l, c ∈ cps) (hlen : l.length = cps.length) :
    ∀ c ∈ cps, c ∈ l := by
  have hperm : l.Perm cps :=
    (List.subperm_of_subset hnd (fun c hc => hsub c hc)).perm_of_length_le
      (by omega)
  intro c hc
  exact hperm.mem_iff.mpr hc

theorem effect_completedCheckpoints (cps : List ℚ) (s : MediaState) :
    (mediaCompletionEffect cps s).completedCheckpoints = s.completedCheckpoints := by
  unfold mediaCompletionEffect
  split <;> rfl

theorem mediaInv_step (cps : List ℚ) (s : MediaState) (e : MediaEv)
    (hinv : mediaInv cps s) : mediaInv cps (mediaStep cps s e) := by
  obtain ⟨hnd, hsub, hact, hiff⟩ := hinv
  have hcore : (mediaStepCore cps s e).completedCheckpoints.Nodup ∧
      (∀ c ∈ (mediaStepCore cps s e).completedCheckpoints, c ∈ cps) ∧
      (∀ c : ℚ, (mediaStepCore cps s e).activeCheckpoint = some c → c ∈ cps) ∧
      (mediaStepCore cps s e).isCompleted = s.isCompleted ∧
      (s.hasEnded = true → (mediaStepCore cps s e).hasEnded = true) ∧
      ((mediaStepCore cps s e).hasEnded = true → s.hasEnded = true ∨ e = MediaEv.ended) ∧
      (s.hasEnded = true ∧ s.completedCheckpoints.length = cps.length →
        (mediaStepCore cps s e).hasEnded = true ∧
        (mediaStepCore cps s e).completedCheckpoints.length = cps.length) := by
    cases e with
    | progress t =>
      simp only [mediaStepCore, checkCheckpoints]
      cases hf : List.find? (fun cp => decide (cp ≤ t) && decide (t < cp + 1)
          && !(s.completedCheckpoints.contains cp)) cps with
      | some cp =>
        have hcp : cp ∈ cps := List.mem_of_find?_eq_some hf
        refine ⟨hnd, hsub, ?_, rfl, fun h => h, fun h => Or.inl h, fun h => ⟨h.1, h.2⟩⟩
        intro c hc
        injection hc with hc
        exact hc ▸ hcp
      | none =>
        exact ⟨hnd, hsub, hact, rfl, fun h => h, fun h => Or.inl h, fun h => ⟨h.1, h.2⟩⟩
    | continueBtn =>
      simp only [mediaStepCore]
      cases hac : s.activeCheckpoint with
      | some cp =>
        have hcp : cp ∈ cps := hact cp hac
        refine ⟨addCompleted_nodup hnd, ?_, by simp, rfl, fun h => h,
          fun h => Or.inl h, ?_⟩
        · intro c hc
          rcases mem_addCompleted.mp hc with h | rfl
          · exact hsub c h
          · exact hcp
        · rintro ⟨hend, hlen⟩
          refine ⟨hend, ?_⟩
          have hfull := completed_full_mem hnd hsub hlen
          have : cp ∈ s.completedCheckpoints := hfull cp hcp
          simp [addCompleted, this, hlen]
      | none =>
        exact ⟨hnd, hsub, hact, rfl, fun h => h, fun h => Or.inl h, fun h => ⟨h.1, h.2⟩⟩
    | replayBtn =>
      simp only [mediaStepCore]
      cases hac : s.activeCheckpoint with
      | some cp =>
        exact ⟨hnd, hsub, by simp, rfl, fun h => h, fun h => Or.inl h, fun h => ⟨h.1, h.2⟩⟩
      | none =>
        exact ⟨hnd, hsub, hact, rfl, fun h => h, fun h => Or.inl h, fun h => ⟨h.1, h.2⟩⟩
    | ended =>
      exact ⟨hnd, hsub, hact, rfl, fun _ => rfl, fun _ => Or.inr rfl, fun h => ⟨rfl, h.2⟩⟩
    | playPause b =>
      exact ⟨hnd, hsub, hact, rfl, fun h => h, fun h => Or.inl h, fun h => ⟨h.1, h.2⟩⟩
    | seekTo t =>
      exact ⟨hnd, hsub, hact, rfl, fun h => h, fun h => Or.inl h, fun h => ⟨h.1, h.2⟩⟩
  obtain ⟨h1, h2, h3, h4, _, _, h7⟩ := hcore
  unfold mediaStep mediaCompletionEffect
  split
  · rename_i hcond
    exact ⟨h1, h2, h3, by simp [hcond.1, hcond.2]⟩
  · rename_i hcond
    refine ⟨h1, h2, h3, ?_⟩
    rw [h4]
    rw [hiff]
    constructor
    · intro hc
      exact absurd (h7 hc) hcond
    · intro hc
      exact absurd hc hcond

theorem mediaInv_run (cps : List ℚ) (evs : List MediaEv) (s : MediaState)
    (hinv : mediaInv cps s) : mediaInv cps (mediaRun cps s evs) := by
  induction evs generalizing s with
  | nil => exact hinv
  | cons e evs ih => exact ih _ (mediaInv_step cps s e hinv)

/-- C5: in every state reachable from mount, the exercise is marked
complete iff playback has reached Ended and every authored checkpoint time
has been completed for this session; and the completed set grows only via
the explicit Continue action taken from the at-checkpoint state - so
reaching Ended with any checkpoint missed (for instance by never delivering
a progress event inside its `[time, time+1)` window, as when seeking past
it) never marks the exercise complete. -/
theorem media_completion_spec (cps : List ℚ) (hnd : cps.Nodup)
    (evs : List MediaEv) :
    ((mediaRun cps initMediaState evs).isCompleted = true ↔
      ((mediaRun cps initMediaState evs).hasEnded = true ∧
        ∀ cp ∈ cps, cp ∈ (mediaRun cps initMediaState evs).completedCheckpoints)) ∧
    (∀ s : MediaState, ∀ e : MediaEv, ∀ c : ℚ,
      c ∉ s.completedCheckpoints →
      c ∈ (mediaStep cps s e).completedCheckpoints →
      e = MediaEv.continueBtn ∧ s.activeCheckpoint = some c) := by
  constructor
  · have hinit : mediaInv cps initMediaState := by
      refine ⟨List.nodup_nil, by simp [initMediaState], by simp [initMediaState], ?_⟩
      simp [initMediaState]
    obtain ⟨hnd', hsub, _, hiff⟩ := mediaInv_run cps evs initMediaState hinit
    rw [hiff]
    constructor
    · rintro ⟨hend, hlen⟩
      exact ⟨hend, completed_full_mem hnd' hsub hlen⟩
    · rintro ⟨hend, hfull⟩
      refine ⟨hend, ?_⟩
      have h1 : (mediaRun cps initMediaState evs).completedCheckpoints.Subperm cps :=
        List.subperm_of_subset hnd' (fun c hc => hsub c hc)
      have h2 : cps.Subperm (mediaRun cps initMediaState evs).completedCheckpoints :=
        List.subperm_of_subset hnd (fun c hc => hfull c hc)
      have := h1.length_le
      have := h2.length_le
      omega
  · intro s e c hnotin hin
    rw [mediaStep, effect_completedCheckpoints] at hin
    cases e with
    | progress t =>
      exfalso
      apply hnotin
      simp only [mediaStepCore, checkCheckpoints] at hin
      cases hf : List.find? (fun cp => decide (cp ≤ t) && decide (t < cp + 1)
          && !(s.completedCheckpoints.contains cp)) cps with
      | some cp => rw [hf] at hin; exact hin
      | none => rw [hf] at hin; exact hin
    | continueBtn =>
      simp only [mediaStepCore] at hin
      cases hac : s.activeCheckpoint with
      | some cp =>
        rw [hac] at hin
        rcases mem_addCompleted.mp hin with h | rfl
        · exact absurd h hnotin
        · exact ⟨rfl, rfl⟩
      | none =>
        rw [hac] at hin
        exact absurd hin hnotin
    | replayBtn =>
      exfalso
      apply hnotin
      simp only [mediaStepCore] at hin
      cases hac : s.activeCheckpoint with
      | some cp => rw [hac] at hin; exact hin
      | none => rw [hac] at hin; exact hin
    | ended => exact absurd hin hnotin
    | playPause b => exact absurd hin hnotin
    | seekTo t => exact absurd hin hnotin

/-- C5 witness for `media_completion_spec`: checkpoints at 10s and 30s;
playing through the first checkpoint (continuing it) and then reaching the
end at 35s without ever triggering the 30s checkpoint leaves the exercise
unmarked even though Ended was reached. -/
theorem media_completion_spec_witness :
    ([(10 : ℚ), 30] : List ℚ).Nodup ∧
    ((mediaRun [(10 : ℚ), 30] initMediaState
        [.progress 5, .progress 10, .continueBtn, .progress 35, .ended]).isCompleted
      = true ↔
      ((mediaRun [(10 : ℚ), 30] initMediaState
          [.progress 5, .progress 10, .continueBtn, .progress 35, .ended]).hasEnded
        = true ∧
        ∀ cp ∈ ([(10 : ℚ), 30] : List ℚ),
          cp ∈ (mediaRun [(10 : ℚ), 30] initMediaState
            [.progress 5, .progress 10, .continueBtn, .progress 35, .ended]).completedCheckpoints)) ∧
    (mediaRun [(10 : ℚ), 30] initMediaState
        [.progress 5, .progress 10, .continueBtn, .progress 35, .ended]).hasEnded = true ∧
    (mediaRun [(10 : ℚ), 30] initMediaState
        [.progress 5, .progress 10, .continueBtn, .progress 35, .ended]).isCompleted = false :=
  ⟨by decide,
   (media_completion_spec [(10 : ℚ), 30] (by decide)
      [.progress 5, .progress 10, .continueBtn, .progress 35, .ended]).1,
   by norm_num [mediaRun, mediaStep, mediaStepCore, mediaCompletionEffect,
     checkCheckpoints, addCompleted, initMediaState, List.find?],
   by norm_num [mediaRun, mediaStep, mediaStepCore, mediaCompletionEffect,
     checkCheckpoints, addCompleted, initMediaState, List.find?]⟩

end Telc
